import Mathlib

/-!
# Verification of the ART copy-on-write overlay filesystem

This file is a shallow embedding, in Lean 4, of the core of the `art`
repository: the SQLite-backed delta store (`pkg/db`), the whiteout trie
(`pkg/overlay/whiteout.go`), the delta filesystem (`pkg/overlay/agentfs.go`)
and the merge engine (`pkg/overlay/overlayfs.go`).

Modelling conventions:

* SQL tables become association lists (`List (key × value)`); an SQL
  `INSERT OR REPLACE` is modelled by `ainsert`, an `UPDATE` touching the
  matching rows by `amodify`, a `DELETE` by `aerase`.  `SELECT ... WHERE key =`
  is `alookup`.
* Go `int64`/`uint64` offsets, lengths and inode numbers are modelled as
  `Nat`; every claim under study constrains them to be non-negative, where
  Go's and Lean's arithmetic agree.  Byte values are opaque `Nat`s.
* The wall clock (`time.Now().Unix()`) is threaded through every operation
  as an explicit `now : Int` parameter.
* Fallible Go calls return `Except FsErr` values; an early `return err`
  inside a transaction discards the intermediate state, which models the
  SQL rollback performed by `Store.WithTx`.
* The dentry LRU cache of `AgentFS.resolvePath` is a pass-through
  performance cache (invalidated on every delete/rename); path resolution
  is modelled by the underlying store lookups it caches.
* The host tree below `HostFS` is outside the repository; the base layer is
  modelled as a finite map from normalized paths (segment lists) to entries
  carrying the `Stats` that `HostFS.Lstat` would report, the content that
  `HostFS.Open`/`OSFile.Read` would yield for a regular file, and the
  symlink target that `HostFS.Readlink` would yield.
-/

namespace Art


/-! ## Association-list primitives (models of SQL row access) -/

/-- First value stored under key `a` (`SELECT ... WHERE key = a LIMIT 1`). -/
def alookup {α β : Type} [DecidableEq α] : List (α × β) → α → Option β
  | [], _ => none
  | (k, v) :: rest, a => if k = a then some v else alookup rest a

/-- Delete every row with key `a` (`DELETE ... WHERE key = a`). -/
def aerase {α β : Type} [DecidableEq α] (l : List (α × β)) (a : α) : List (α × β) :=
  l.filter (fun kv => kv.1 ≠ a)

/-- `INSERT OR REPLACE`: delete any row with key `a`, then insert `(a, b)`. -/
def ainsert {α β : Type} [DecidableEq α] (l : List (α × β)) (a : α) (b : β) :
    List (α × β) :=
  (a, b) :: aerase l a

/-- `UPDATE ... WHERE key = a`: apply `f` to every row with key `a`. -/
def amodify {α β : Type} [DecidableEq α] (l : List (α × β)) (a : α) (f : β → β) :
    List (α × β) :=
  l.map (fun kv => if kv.1 = a then (kv.1, f kv.2) else kv)

/-! ## Paths

`splitPath` models `overlay.splitPath`: `filepath.Clean("/" + path)` followed
by splitting on `/` and dropping empty and `.` segments.  `filepath.Clean` on
a rooted path drops empty and `.` segments and resolves each `..` against the
segment stack (a `..` at the root is discarded), which is exactly the fold
below.  `joinPath` models `overlay.joinPath`; `normalizePath` models
`db.normalizePath`, which is `filepath.Clean` of the rooted path and hence
agrees with `joinPath ∘ splitPath`. -/

/-- Split a character list on `/`, dropping empty segments (the non-empty
results of Go's `strings.Split` composed with the `p != ""` filter).  `cur`
accumulates the current segment in reverse. -/
def pathSegs : List Char → List Char → List String
  | [], cur => if cur = [] then [] else [String.mk cur.reverse]
  | c :: rest, cur =>
    if c = '/' then
      (if cur = [] then [] else [String.mk cur.reverse]) ++ pathSegs rest []
    else pathSegs rest (c :: cur)

def splitPath (path : String) : List String :=
  ((pathSegs path.data []).filter (fun s => s ≠ ".")).foldl
    (fun acc s => if s = ".." then acc.dropLast else acc ++ [s]) []

def joinPath (parts : List String) : String :=
  "/" ++ String.intercalate "/" parts

def normalizePath (path : String) : String :=
  joinPath (splitPath path)

/-! ## The whiteout trie (`pkg/overlay/whiteout.go`)

A `whiteoutNode` carries a child map (Go `map[string]*whiteoutNode`, modelled
as an association list) and the `isWhiteout` flag.  All trie operations walk
a segment list produced by `splitPath`. -/

inductive whiteoutNode : Type where
  | mk : List (String × whiteoutNode) → Bool → whiteoutNode

namespace whiteoutNode

def children : whiteoutNode → List (String × whiteoutNode)
  | mk c _ => c

def isWhiteout : whiteoutNode → Bool
  | mk _ f => f

/-- A freshly allocated node (`&whiteoutNode{children: make(map[...])}`). -/
def empty : whiteoutNode := mk [] false

/-- `insertLocked`, recursing on the segment list: walk the parts, creating
missing children, and set `isWhiteout` on the final node. -/
def insertParts : whiteoutNode → List String → whiteoutNode
  | mk c _, [] => mk c true
  | mk c f, p :: ps =>
    let child := (alookup c p).getD empty
    mk (ainsert c p (insertParts child ps)) f

/-- The walk shared by `HasExactWhiteout`: follow the parts; if a segment is
missing return `false`, else return the final node's flag. -/
def memParts : whiteoutNode → List String → Bool
  | n, [] => n.isWhiteout
  | n, p :: ps =>
    match alookup n.children p with
    | none => false
    | some child => memParts child ps

/-- The walk of `HasWhiteoutAncestor`: follow the parts, returning `true` as
soon as a node *below the root* has its flag set. -/
def ancParts : whiteoutNode → List String → Bool
  | _, [] => false
  | n, p :: ps =>
    match alookup n.children p with
    | none => false
    | some child => child.isWhiteout || ancParts child ps

/-- `Remove`'s recursive core.  The boolean result records whether the walk
reached the terminal node (Go returns early, mutating nothing, when a segment
is missing).  On the way back up it performs the bottom-up pruning: a child
that has become childless and flagless is discarded; pruning stops at the
first node that is still needed. -/
def removeParts : whiteoutNode → List String → whiteoutNode × Bool
  | mk c _, [] => (mk c false, true)
  | mk c f, p :: ps =>
    match alookup c p with
    | none => (mk c f, false)
    | some child =>
      let r := removeParts child ps
      if r.2 then
        if r.1.children.isEmpty && !r.1.isWhiteout then
          (mk (aerase c p) f, true)
        else
          (mk (ainsert c p r.1) f, true)
      else (mk c f, false)

end whiteoutNode


/-- The in-memory whiteout cache (`WhiteoutCache`): a trie root. -/
structure WhiteoutCache : Type where
  root : whiteoutNode

namespace WhiteoutCache


/-- `NewWhiteoutCache`. -/
def new : WhiteoutCache := ⟨whiteoutNode.empty⟩

/-- `Insert`. -/
def Insert (w : WhiteoutCache) (path : String) : WhiteoutCache :=
  ⟨w.root.insertParts (splitPath path)⟩

/-- `Remove`: a nil part list returns immediately, otherwise remove with
bottom-up pruning. -/
def Remove (w : WhiteoutCache) (path : String) : WhiteoutCache :=
  let parts := splitPath path
  if parts.isEmpty then w else ⟨(w.root.removeParts parts).1⟩

/-- `HasExactWhiteout`. -/
def HasExactWhiteout (w : WhiteoutCache) (path : String) : Bool :=
  w.root.memParts (splitPath path)

/-- `HasWhiteoutAncestor` (returns `true` if the path itself or any ancestor
carries a whiteout). -/
def HasWhiteoutAncestor (w : WhiteoutCache) (path : String) : Bool :=
  w.root.ancParts (splitPath path)

/-- `GetChildWhiteouts`: names of direct children of the directory node whose
flag is set. -/
def GetChildWhiteouts (w : WhiteoutCache) (dirPath : String) : List String :=
  go w.root (splitPath dirPath)
where
  go : whiteoutNode → List String → List String
    | n, [] => (n.children.filter (fun kv => kv.2.isWhiteout)).map (·.1)
    | n, p :: ps =>
      match alookup n.children p with
      | none => []
      | some child => go child ps

/-- `LoadFromPaths`: reset the trie and insert every path. -/
def LoadFromPaths (paths : List String) : WhiteoutCache :=
  paths.foldl Insert new

end WhiteoutCache


/-! ## Trie lemmas -/

namespace whiteoutNode


end whiteoutNode


/-! ## Sequences of whiteout-cache operations (claim C8) -/

/-- A call to `WhiteoutCache.Insert` or `WhiteoutCache.Remove`. -/
inductive WhiteoutOp : Type where
  | ins : String → WhiteoutOp
  | rem : String → WhiteoutOp
deriving DecidableEq

/-- The path argument of an operation. -/
def WhiteoutOp.path : WhiteoutOp → String
  | .ins p => p
  | .rem p => p

/-- Run a sequence of cache operations. -/
def applyWhiteoutOps (w : WhiteoutCache) (ops : List WhiteoutOp) : WhiteoutCache :=
  ops.foldl
    (fun w op =>
      match op with
      | .ins p => w.Insert p
      | .rem p => w.Remove p)
    w

/-- The purely set-like meaning of the same sequence: the collection of
normalized segment lists inserted and not subsequently removed. -/
def whiteoutSetApply (s : List (List String)) (ops : List WhiteoutOp) :
    List (List String) :=
  ops.foldl
    (fun s op =>
      match op with
      | .ins p => splitPath p :: s
      | .rem p => s.filter (fun q => q ≠ splitPath p))
    s

/-! ## Error taxonomy (`pkg/overlay/filesystem.go`, `pkg/db`) -/

inductive FsErr : Type where
  | notFound
  | alreadyExists
  | notEmpty
  | notDir
  | isDir
  | invalid
  | noAccess
  | readOnly
  | crossLink
  | ioErr
deriving DecidableEq

/-! ## The delta store (`pkg/db`)

Each SQL table of `initSchema` becomes an association list; `nextIno` models
the `AUTOINCREMENT` counter of `fs_inode`.  The denormalized `parent_path`
column of `fs_whiteout` is recomputable from the path and is not stored. -/

def S_IFMT : Nat := 0o170000

def S_IFDIR : Nat := 0o040000

def S_IFREG : Nat := 0o100000

def S_IFLNK : Nat := 0o120000

/-- A row of `fs_inode`. -/
structure Inode : Type where
  ino : Nat
  mode : Nat
  nlink : Nat
  uid : Nat
  gid : Nat
  size : Nat
  atime : Int
  mtime : Int
  ctime : Int
deriving DecidableEq

def Inode.IsDir (i : Inode) : Bool := i.mode &&& S_IFMT == S_IFDIR

def Inode.IsRegular (i : Inode) : Bool := i.mode &&& S_IFMT == S_IFREG

def Inode.IsSymlink (i : Inode) : Bool := i.mode &&& S_IFMT == S_IFLNK

/-- Bytes are opaque values. -/
abbrev Byte := Nat

structure Store : Type where
  inodes : List (Nat × Inode)
  dentries : List ((Nat × String) × Nat)
  chunks : List ((Nat × Nat) × List Byte)
  symlinks : List (Nat × String)
  whiteouts : List (String × Int)
  origins : List (Nat × Nat)
  nextIno : Nat
  chunkSize : Nat
deriving DecidableEq

namespace Store


/-- `initSchema`: fresh database with the reserved root inode
(ino 1, mode 0o40755 = 16877, nlink 2) and `AUTOINCREMENT` counter at 2. -/
def init (chunkSize : Nat) (now : Int) : Store where
  inodes := [(1, ⟨1, 16877, 2, 0, 0, 0, now, now, now⟩)]
  dentries := []
  chunks := []
  symlinks := []
  whiteouts := []
  origins := []
  nextIno := 2
  chunkSize := chunkSize

/-- `Store.GetInode`. -/
def GetInode (s : Store) (ino : Nat) : Except FsErr Inode :=
  match alookup s.inodes ino with
  | some i => .ok i
  | none => .error .notFound

/-- `Store.CreateInodeTx`: insert a new inode with link count 1, size 0 and
all three times set to `now`; returns the assigned number. -/
def CreateInodeTx (s : Store) (now : Int) (mode uid gid : Nat) : Store × Nat :=
  let ino := s.nextIno
  ({ s with
      inodes := (ino, ⟨ino, mode, 1, uid, gid, 0, now, now, now⟩) :: s.inodes
      nextIno := ino + 1 },
    ino)

/-- `Store.UpdateSize` (and `UpdateSizeTx`): set size, touch mtime/ctime. -/
def UpdateSize (s : Store) (now : Int) (ino : Nat) (size : Nat) : Store :=
  { s with
      inodes := amodify s.inodes ino
        (fun i => { i with size := size, mtime := now, ctime := now }) }

/-- `Store.UpdateTimes`: an absent atime/mtime argument is replaced by `now`
before the single `UPDATE` that also sets ctime to `now`. -/
def UpdateTimes (s : Store) (now : Int) (ino : Nat)
    (atime mtime : Option Int) : Store :=
  { s with
      inodes := amodify s.inodes ino
        (fun i =>
          { i with
              atime := atime.getD now
              mtime := mtime.getD now
              ctime := now }) }

/-- `Store.IncrNlinkTx`. -/
def IncrNlinkTx (s : Store) (now : Int) (ino : Nat) : Store :=
  { s with
      inodes := amodify s.inodes ino
        (fun i => { i with nlink := i.nlink + 1, ctime := now }) }

/-- `Store.DecrNlinkTx`: decrement, then read the new count back (the read
fails if the inode row does not exist). -/
def DecrNlinkTx (s : Store) (now : Int) (ino : Nat) : Except FsErr (Store × Nat) :=
  let s' : Store :=
    { s with
        inodes := amodify s.inodes ino
          (fun i => { i with nlink := i.nlink - 1, ctime := now }) }
  match alookup s'.inodes ino with
  | some i => .ok (s', i.nlink)
  | none => .error .ioErr

/-- `Store.DeleteInodeTx`. -/
def DeleteInodeTx (s : Store) (ino : Nat) : Store :=
  { s with inodes := aerase s.inodes ino }

/-- `Store.Lookup`: `(parent, name) → child` or not-found. -/
def Lookup (s : Store) (parentIno : Nat) (name : String) : Except FsErr Nat :=
  match alookup s.dentries (parentIno, name) with
  | some ino => .ok ino
  | none => .error .notFound

/-- `Store.CreateDentryTx`: a `UNIQUE(parent_ino, name)` violation is mapped
to already-exists. -/
def CreateDentryTx (s : Store) (parentIno : Nat) (name : String) (ino : Nat) :
    Except FsErr Store :=
  match alookup s.dentries (parentIno, name) with
  | some _ => .error .alreadyExists
  | none => .ok { s with dentries := ((parentIno, name), ino) :: s.dentries }

/-- `Store.DeleteDentryTx`: not-found when no row was affected. -/
def DeleteDentryTx (s : Store) (parentIno : Nat) (name : String) :
    Except FsErr Store :=
  match alookup s.dentries (parentIno, name) with
  | some _ => .ok { s with dentries := aerase s.dentries (parentIno, name) }
  | none => .error .notFound

/-- `Store.HasChildren`: `COUNT(*) > 0` over the dentries of `parentIno`. -/
def HasChildren (s : Store) (parentIno : Nat) : Bool :=
  s.dentries.any (fun kv => kv.1.1 == parentIno)

/-- `Store.CreateSymlinkTx`. -/
def CreateSymlinkTx (s : Store) (ino : Nat) (target : String) : Store :=
  { s with symlinks := (ino, target) :: s.symlinks }

/-- `Store.ReadSymlink`. -/
def ReadSymlink (s : Store) (ino : Nat) : Except FsErr String :=
  match alookup s.symlinks ino with
  | some t => .ok t
  | none => .error .notFound

/-- `Store.DeleteSymlinkTx`. -/
def DeleteSymlinkTx (s : Store) (ino : Nat) : Store :=
  { s with symlinks := aerase s.symlinks ino }

/-- `Store.DeleteDataTx`: delete every chunk of `ino`. -/
def DeleteDataTx (s : Store) (ino : Nat) : Store :=
  { s with chunks := s.chunks.filter (fun kv => kv.1.1 ≠ ino) }

/-! ### Chunked file data (`ReadData` / `writeDataTx`)

The SQL range scan
`SELECT chunk_index, data ... WHERE chunk_index BETWEEN s AND e ORDER BY chunk_index`
is modelled by iterating the indices `s, s+1, ..., e` in order and skipping
absent rows, which yields exactly the rows of the scan in scan order; the
Go loop guard `rows.Next() && bytesRead < length` is the `acc.length < length`
test (once it fails, remaining rows would contribute no bytes). -/

/-- Go's `copy(dst[pos:], src)`: overwrite `min (dst.length - pos) src.length`
bytes of `dst` starting at `pos`; the length of `dst` never changes. -/
def listWrite (dst : List Byte) (pos : Nat) (src : List Byte) : List Byte :=
  let n := min (dst.length - pos) src.length
  dst.take pos ++ src.take n ++ dst.drop (pos + n)

/-- `writeStart` of `writeDataTx`'s loop body
(`writeStart := 0; if offset > chunkStart { writeStart = offset - chunkStart }`,
which on `Nat` is truncated subtraction). -/
def wcStart (cs o idx : Nat) : Nat := o - idx * cs

/-- `writeLen`: `chunkSize - writeStart`, capped at the data still unwritten
(`L` is the total data length, `dOff` the bytes already written). -/
def wcLen (cs o L idx dOff : Nat) : Nat :=
  if dOff + (cs - wcStart cs o idx) > L then L - dOff
  else cs - wcStart cs o idx

/-- `existingData`: read the stored chunk only for a partial write; an
absent row scans to nil. -/
def wcExisting (c : List ((Nat × Nat) × List Byte)) (ino cs o L idx dOff : Nat) :
    List Byte :=
  if wcStart cs o idx > 0 || wcLen cs o L idx dOff < cs then
    (alookup c (ino, idx)).getD []
  else []

/-- `newChunk` before the copy: widen the existing chunk with zeros up to
`writeStart + writeLen`, or allocate a fresh zeroed buffer of that size. -/
def wcNewChunk0 (c : List ((Nat × Nat) × List Byte)) (ino cs o L idx dOff : Nat) :
    List Byte :=
  let ws := wcStart cs o idx
  let wl := wcLen cs o L idx dOff
  let e := wcExisting c ino cs o L idx dOff
  if e.length > 0 then
    if e.length < ws + wl then e ++ List.replicate (ws + wl - e.length) 0
    else e
  else List.replicate (ws + wl) 0

/-- `newChunk` after
`copy(newChunk[writeStart:], data[dataOffset:dataOffset+writeLen])`. -/
def wcNewChunk (c : List ((Nat × Nat) × List Byte)) (ino cs o : Nat)
    (b : List Byte) (idx dOff : Nat) : List Byte :=
  listWrite (wcNewChunk0 c ino cs o b.length idx dOff) (wcStart cs o idx)
    ((b.drop dOff).take (wcLen cs o b.length idx dOff))

/-- The body of `writeDataTx`'s `for chunkIdx := startChunk; ...` loop,
with the remaining iteration count `cnt` as the recursion measure. -/
def writeChunksLoop (ino cs o : Nat) (b : List Byte) :
    Nat → List ((Nat × Nat) × List Byte) → Nat → Nat →
      List ((Nat × Nat) × List Byte)
  | 0, c, _, _ => c
  | cnt + 1, c, idx, dOff =>
    writeChunksLoop ino cs o b cnt
      (ainsert c (ino, idx) (wcNewChunk c ino cs o b idx dOff)) (idx + 1)
      (dOff + wcLen cs o b.length idx dOff)

/-- `Store.writeDataTx` (= `WriteData` / `WriteDataTx`). -/
def WriteData (s : Store) (ino o : Nat) (b : List Byte) : Store :=
  if b.length = 0 then s
  else
    let cs := s.chunkSize
    let startChunk := o / cs
    let endChunk := (o + b.length - 1) / cs
    { s with
        chunks :=
          writeChunksLoop ino cs o b (endChunk - startChunk + 1) s.chunks
            startChunk 0 }

/-- The bytes a scanned row contributes: slice the chunk to the intersecting
sub-range, capped so the total does not exceed the requested length
(`readStart`/`readEnd` of `ReadData`; an empty result stands for Go's
skipped append). -/
def rdSlice (cs o L idx accLen : Nat) (data : List Byte) : List Byte :=
  let readStart := o - idx * cs
  let remaining := L - accLen
  let readEnd :=
    if data.length - readStart > remaining then readStart + remaining
    else data.length
  if readStart < data.length && readEnd > readStart then
    (data.drop readStart).take (min readEnd data.length - readStart)
  else []

/-- The row loop of `ReadData`, iterating over the scanned index range. -/
def readChunksLoop (c : List ((Nat × Nat) × List Byte)) (ino cs o L : Nat) :
    Nat → Nat → List Byte → List Byte
  | 0, _, acc => acc
  | cnt + 1, idx, acc =>
    if acc.length < L then
      match alookup c (ino, idx) with
      | none => readChunksLoop c ino cs o L cnt (idx + 1) acc
      | some data =>
        readChunksLoop c ino cs o L cnt (idx + 1)
          (acc ++ rdSlice cs o L idx acc.length data)
    else acc

/-- `Store.ReadData`: concatenate the intersecting sub-ranges of the rows
scanned between `startChunk` and `endChunk` (note: no zero-filling of gaps). -/
def ReadData (s : Store) (ino o L : Nat) : List Byte :=
  if L = 0 then []
  else
    let cs := s.chunkSize
    let startChunk := o / cs
    let endChunk := (o + L - 1) / cs
    readChunksLoop s.chunks ino cs o L (endChunk - startChunk + 1) startChunk []

/-- `Store.CreateWhiteout`: `INSERT OR REPLACE` of the normalized path. -/
def CreateWhiteout (s : Store) (now : Int) (path : String) : Store :=
  { s with whiteouts := ainsert s.whiteouts (normalizePath path) now }

/-- `Store.DeleteWhiteout`. -/
def DeleteWhiteout (s : Store) (path : String) : Store :=
  { s with whiteouts := aerase s.whiteouts (normalizePath path) }

/-- `Store.AddOrigin`: `INSERT OR REPLACE` of delta-ino → base-ino. -/
def AddOrigin (s : Store) (deltaIno baseIno : Nat) : Store :=
  { s with origins := ainsert s.origins deltaIno baseIno }

/-- `Store.GetOrigin`: 0 when no mapping exists. -/
def GetOrigin (s : Store) (deltaIno : Nat) : Nat :=
  (alookup s.origins deltaIno).getD 0

/-- `Store.DeleteOrigin`. -/
def DeleteOrigin (s : Store) (deltaIno : Nat) : Store :=
  { s with origins := aerase s.origins deltaIno }

end Store


/-! ## Stats (`pkg/overlay/filesystem.go`) -/

structure Stats : Type where
  ino : Nat
  mode : Nat
  nlink : Nat
  uid : Nat
  gid : Nat
  size : Nat
  atime : Int
  mtime : Int
  ctime : Int
deriving DecidableEq

def Stats.IsDir (st : Stats) : Bool := st.mode &&& S_IFMT == S_IFDIR

def Stats.IsRegular (st : Stats) : Bool := st.mode &&& S_IFMT == S_IFREG

def Stats.IsSymlink (st : Stats) : Bool := st.mode &&& S_IFMT == S_IFLNK

def Stats.Perm (st : Stats) : Nat := st.mode &&& 0o777

/-- `inodeToStats`. -/
def inodeToStats (i : Inode) : Stats :=
  ⟨i.ino, i.mode, i.nlink, i.uid, i.gid, i.size, i.atime, i.mtime, i.ctime⟩

/-- Success test on an `Except` result (`err == nil` in Go). -/
def isOkE {ε α : Type} : Except ε α → Bool
  | .ok _ => true
  | .error _ => false

/-! ## The delta filesystem (`pkg/overlay/agentfs.go`)

`AgentFS` carries no state beyond its `Store` (the dentry LRU is a
pass-through cache), so its operations are functions on `Store`.  The Go
code round-trips intermediate paths through `joinPath`/`splitPath`; on the
clean segments produced by `splitPath` this round-trip is the identity, so
the model passes segment lists directly. -/

namespace AgentFS


/-- `resolvePath`'s walk from an inode along a segment list. -/
def resolveParts (s : Store) : Nat → List String → Except FsErr Nat
  | ino, [] => .ok ino
  | ino, p :: ps =>
    match s.Lookup ino p with
    | .ok child => resolveParts s child ps
    | .error e => .error e

/-- `resolvePath`: walk from the root inode 1. -/
def resolvePath (s : Store) (path : String) : Except FsErr Nat :=
  resolveParts s 1 (splitPath path)

/-- `resolveParentAndName`. -/
def resolveParentAndName (s : Store) (parts : List String) :
    Except FsErr (Nat × String) :=
  match parts with
  | [] => .error .invalid
  | _ :: _ => do
    let parentIno ← resolveParts s 1 parts.dropLast
    .ok (parentIno, parts.getLastD "")

/-- `AgentFS.Lstat`. -/
def Lstat (s : Store) (path : String) : Except FsErr Stats := do
  let ino ← resolvePath s path
  let inode ← s.GetInode ino
  .ok (inodeToStats inode)

/-- `AgentFS.Stat` = `Lstat` (the delta does not follow symlinks in paths). -/
def Stat (s : Store) (path : String) : Except FsErr Stats :=
  Lstat s path

/-- `AgentFS.Readlink`. -/
def Readlink (s : Store) (path : String) : Except FsErr String := do
  let ino ← resolvePath s path
  s.ReadSymlink ino

/-- `AgentFS.Mkdir` on a segment list: one transaction creating the inode
with `S_IFDIR | mode`, inserting the dentry and incrementing the parent's
link count. -/
def MkdirParts (s : Store) (now : Int) (parts : List String) (mode : Nat) :
    Except FsErr Store := do
  let pn ← resolveParentAndName s parts
  let r := s.CreateInodeTx now (S_IFDIR ||| mode) 0 0
  let s2 ← r.1.CreateDentryTx pn.1 pn.2 r.2
  .ok (s2.IncrNlinkTx now pn.1)

/-- `AgentFS.Mkdir`. -/
def Mkdir (s : Store) (now : Int) (path : String) (mode : Nat) :
    Except FsErr Store :=
  MkdirParts s now (splitPath path) mode

/-- `AgentFS.Rmdir`: not-dir and not-empty checks, then one transaction
deleting the dentry and the inode and decrementing the parent's count. -/
def Rmdir (s : Store) (now : Int) (path : String) : Except FsErr Store := do
  let pn ← resolveParentAndName s (splitPath path)
  let ino ← s.Lookup pn.1 pn.2
  let inode ← s.GetInode ino
  if !inode.IsDir then .error .notDir
  else if s.HasChildren ino then .error .notEmpty
  else do
    let s1 ← s.DeleteDentryTx pn.1 pn.2
    let s2 := s1.DeleteInodeTx ino
    let r ← s2.DecrNlinkTx now pn.1
    .ok r.1

/-- `AgentFS.Remove` (unlink): is-dir check, then one transaction deleting
the dentry, decrementing the target's count, and reaping data/symlink rows
and the inode when the count reaches 0. -/
def Remove (s : Store) (now : Int) (path : String) : Except FsErr Store := do
  let pn ← resolveParentAndName s (splitPath path)
  let ino ← s.Lookup pn.1 pn.2
  let inode ← s.GetInode ino
  if inode.IsDir then .error .isDir
  else do
    let s1 ← s.DeleteDentryTx pn.1 pn.2
    let r ← s1.DecrNlinkTx now ino
    if r.2 = 0 then
      let s3 :=
        if inode.IsSymlink then r.1.DeleteSymlinkTx ino
        else r.1.DeleteDataTx ino
      .ok (s3.DeleteInodeTx ino)
    else .ok r.1

/-- `AgentFS.Utimens`: resolve, then `Store.UpdateTimes`. -/
def Utimens (s : Store) (now : Int) (path : String)
    (atime mtime : Option Int) : Except FsErr Store := do
  let ino ← resolvePath s path
  .ok (s.UpdateTimes now ino atime mtime)

/-- `AgentFile.Read`: `Store.ReadData` for the handle's inode, copied into a
caller buffer of length `destLen` (the returned list is the data placed into
the buffer; its length is the returned byte count). -/
def fileRead (s : Store) (ino : Nat) (destLen : Nat) (offset : Nat) :
    List Byte :=
  s.ReadData ino offset destLen

/-- `AgentFile.Write`: write the chunks, then raise the inode size if the
write extended the file, else only bump mtime. -/
def fileWrite (s : Store) (now : Int) (ino : Nat) (offset : Nat)
    (data : List Byte) : Except FsErr (Store × Nat) := do
  let s1 := s.WriteData ino offset data
  let inode ← s1.GetInode ino
  let newSize := offset + data.length
  if newSize > inode.size then
    .ok (s1.UpdateSize now ino newSize, data.length)
  else
    .ok (s1.UpdateTimes now ino none (some now), data.length)

/-- The loop body of `AgentFS.EnsureParentDirs` over prefix lengths
`i = 1, ..., parts.length - 1` (fuel counts the remaining iterations). -/
def ensureLoop (now : Int) (parts : List String) :
    Nat → Nat → Store → Except FsErr Store
  | _, 0, s => .ok s
  | i, fuel + 1, s =>
    match resolveParts s 1 (parts.take i) with
    | .ok _ => ensureLoop now parts (i + 1) fuel s
    | .error .notFound =>
      match MkdirParts s now (parts.take i) 0o755 with
      | .ok s' => ensureLoop now parts (i + 1) fuel s'
      | .error .alreadyExists => ensureLoop now parts (i + 1) fuel s
      | .error e => .error e
    | .error e => .error e

/-- `AgentFS.EnsureParentDirs`. -/
def EnsureParentDirs (s : Store) (now : Int) (parts : List String) :
    Except FsErr Store :=
  if parts.length ≤ 1 then .ok s
  else ensureLoop now parts 1 (parts.length - 1) s

end AgentFS


/-! ## The base layer

`HostFS` wraps the host tree, which lives outside the repository.  It is
modelled as a finite map from normalized segment lists to entries carrying
the `Stats` reported by `HostFS.Lstat`, the bytes `HostFS.Open`/`OSFile.Read`
would return for a regular file, and the target `HostFS.Readlink` would
return for a symlink. -/

structure BaseEntry : Type where
  stats : Stats
  content : List Byte
  linkTarget : String
deriving DecidableEq

abbrev Base := List (List String × BaseEntry)

/-- `HostFS.Lstat` (= `os.Lstat`, which does not follow symlinks) over the
host map. -/
def baseLstat (b : Base) (path : String) : Except FsErr Stats :=
  match alookup b (splitPath path) with
  | some e => .ok e.stats
  | none => .error .notFound

/-- Host resolution of a symlink target, as the kernel performs it for
`os.Stat`: a relative target is resolved against the link's directory and
cleaned (`filepath` semantics), an absolute target restarts from the root
of the modelled tree (the map covers the tree the targets resolve in). -/
def baseTargetParts (parts : List String) (target : String) : List String :=
  match target.data with
  | '/' :: _ => splitPath target
  | _ => splitPath (joinPath (parts.dropLast ++ [target]))

/-- The kernel walk behind `os.Stat`: follow symlinks at the final
component, giving up at the kernel's 40-link limit (`ELOOP`, which
`HostFS.Stat` surfaces as a non-not-found error). -/
def baseStatLoop (b : Base) : List String → Nat → Except FsErr Stats
  | _, 0 => .error .ioErr
  | parts, fuel + 1 =>
    match alookup b parts with
    | none => .error .notFound
    | some e =>
      if e.stats.IsSymlink then
        baseStatLoop b (baseTargetParts parts e.linkTarget) fuel
      else .ok e.stats

/-- `HostFS.Stat` (= `os.Stat`, which follows symlinks, unlike
`HostFS.Lstat` = `os.Lstat`). -/
def baseStat (b : Base) (path : String) : Except FsErr Stats :=
  baseStatLoop b (splitPath path) 40

/-- `HostFS.Readlink`. -/
def baseReadlink (b : Base) (path : String) : Except FsErr String :=
  match alookup b (splitPath path) with
  | some e => .ok e.linkTarget
  | none => .error .notFound

/-- `HostFS.Open` + `OSFile.Read(dest, 0)` (= `os.File.ReadAt`): fill a
buffer of length `destLen` from `offset`; a short read surfaces `io.EOF`,
which the caller treats as an error. -/
def baseReadAt (b : Base) (path : String) (destLen offset : Nat) :
    Except FsErr (List Byte) :=
  match alookup b (splitPath path) with
  | none => .error .notFound
  | some e =>
    if offset + destLen ≤ e.content.length then
      .ok ((e.content.drop offset).take destLen)
    else .error .ioErr

/-- The `WithTx` closure of `CopyFromBase`'s regular-file branch: create the
inode, write all chunks, set the size, insert the dentry. -/
def AgentFS.copyRegularTx (s0 : Store) (now : Int) (pIno : Nat) (nm : String)
    (mode uid gid : Nat) (data : List Byte) : Except FsErr (Store × Nat) := do
  let r := s0.CreateInodeTx now mode uid gid
  let s2 := if data.length > 0 then r.1.WriteData r.2 0 data else r.1
  let s3 := s2.UpdateSize now r.2 data.length
  let s4 ← s3.CreateDentryTx pIno nm r.2
  .ok (s4, r.2)

/-- The `WithTx` closure of `CopyFromBase`'s symlink branch. -/
def AgentFS.copySymlinkTx (s0 : Store) (now : Int) (pIno : Nat) (nm : String)
    (mode uid gid : Nat) (target : String) : Except FsErr (Store × Nat) := do
  let r := s0.CreateInodeTx now mode uid gid
  let s2 := r.1.CreateSymlinkTx r.2 target
  let s3 := s2.UpdateSize now r.2 target.utf8ByteSize
  let s4 ← s3.CreateDentryTx pIno nm r.2
  .ok (s4, r.2)

/-- The `WithTx` closure of `CopyFromBase`'s directory branch. -/
def AgentFS.copyDirTx (s0 : Store) (now : Int) (pIno : Nat) (nm : String)
    (mode uid gid : Nat) : Except FsErr (Store × Nat) := do
  let r := s0.CreateInodeTx now mode uid gid
  let s2 ← r.1.CreateDentryTx pIno nm r.2
  .ok (s2.IncrNlinkTx now pIno, r.2)

/-- `AgentFS.CopyFromBase`: materialize a base entity in the delta and
return the new inode number.  Regular files, symlinks and directories each
run a single transaction; any other type falls through returning `(0, nil)`
as in the source (`var ino uint64` is never assigned). -/
def AgentFS.CopyFromBase (s : Store) (now : Int) (base : Base) (path : String) :
    Except FsErr (Store × Nat) := do
  let stats ← baseLstat base path
  let s0 ← AgentFS.EnsureParentDirs s now (splitPath path)
  let pn ← AgentFS.resolveParentAndName s0 (splitPath path)
  if stats.IsRegular then do
    let data ← baseReadAt base path stats.size 0
    AgentFS.copyRegularTx s0 now pn.1 pn.2 stats.mode stats.uid stats.gid data
  else if stats.IsSymlink then do
    let target ← baseReadlink base path
    AgentFS.copySymlinkTx s0 now pn.1 pn.2 stats.mode stats.uid stats.gid target
  else if stats.IsDir then
    AgentFS.copyDirTx s0 now pn.1 pn.2 stats.mode stats.uid stats.gid
  else .ok (s0, 0)

/-! ## The merge engine (`pkg/overlay/overlayfs.go`) -/

structure OverlayFS : Type where
  base : Base
  delta : Store
  whiteout : WhiteoutCache

namespace OverlayFS


/-- `existsInDelta`: `delta.Lstat` succeeds. -/
def existsInDelta (o : OverlayFS) (path : String) : Bool :=
  isOkE (AgentFS.Lstat o.delta path)

/-- `existsInBase`: `base.Lstat` succeeds. -/
def existsInBase (o : OverlayFS) (path : String) : Bool :=
  isOkE (baseLstat o.base path)

/-- `applyOrigin`: report the origin's base inode number when a mapping
exists (`GetOrigin` returns 0 for "no mapping"). -/
def applyOrigin (o : OverlayFS) (stats : Stats) : Stats :=
  let baseIno := o.delta.GetOrigin stats.ino
  if baseIno ≠ 0 then { stats with ino := baseIno } else stats

/-- `OverlayFS.Lstat`: whiteout pre-filter, then delta (with origin
rewriting), then base. -/
def Lstat (o : OverlayFS) (path : String) : Except FsErr Stats :=
  if o.whiteout.HasWhiteoutAncestor path then .error .notFound
  else
    match AgentFS.Lstat o.delta path with
    | .ok stats => .ok (o.applyOrigin stats)
    | .error _ => baseLstat o.base path

/-- `OverlayFS.Stat`: whiteout pre-filter, then the delta
(`AgentFS.Stat = AgentFS.Lstat` in the source) with origin rewriting, then
`HostFS.Stat`, which follows symlinks. -/
def Stat (o : OverlayFS) (path : String) : Except FsErr Stats :=
  if o.whiteout.HasWhiteoutAncestor path then .error .notFound
  else
    match AgentFS.Stat o.delta path with
    | .ok stats => .ok (o.applyOrigin stats)
    | .error _ => baseStat o.base path

/-- `copyOnWrite`: under the copy-up mutex, re-check the delta, look up the
base stats, copy the entity into the delta, and record the origin mapping. -/
def copyOnWrite (o : OverlayFS) (now : Int) (path : String) :
    Except FsErr OverlayFS :=
  if o.existsInDelta path then .ok o
  else do
    let baseStats ← baseLstat o.base path
    let r ← AgentFS.CopyFromBase o.delta now o.base path
    .ok { o with delta := (r.1.AddOrigin r.2 baseStats.ino) }

/-- `OverlayFS.Rmdir`: remove from the delta when present there, and insert
a whiteout when present in the base. -/
def Rmdir (o : OverlayFS) (now : Int) (path : String) :
    Except FsErr OverlayFS :=
  if o.whiteout.HasWhiteoutAncestor path then .error .notFound
  else
    let inDelta := o.existsInDelta path
    let inBase := o.existsInBase path
    if !inDelta && !inBase then .error .notFound
    else do
      let s1 ← if inDelta then AgentFS.Rmdir o.delta now path else .ok o.delta
      if inBase then
        .ok { o with
                delta := s1.CreateWhiteout now path
                whiteout := o.whiteout.Insert path }
      else .ok { o with delta := s1 }

/-- `OverlayFS.Remove` (unlink): delete the origin mapping and the delta
entry when present in the delta, and insert a whiteout when present in the
base. -/
def Remove (o : OverlayFS) (now : Int) (path : String) :
    Except FsErr OverlayFS :=
  if o.whiteout.HasWhiteoutAncestor path then .error .notFound
  else
    let inDelta := o.existsInDelta path
    let inBase := o.existsInBase path
    if !inDelta && !inBase then .error .notFound
    else do
      let s1 ←
        if inDelta then
          let s0 :=
            match AgentFS.resolvePath o.delta path with
            | .ok ino => o.delta.DeleteOrigin ino
            | .error _ => o.delta
          AgentFS.Remove s0 now path
        else .ok o.delta
      if inBase then
        .ok { o with
                delta := s1.CreateWhiteout now path
                whiteout := o.whiteout.Insert path }
      else .ok { o with delta := s1 }

end OverlayFS


/-! ## Claim fixtures (concrete states) -/

/-- A store with chunk size 4 whose regular file (inode 2, size 5) has only
chunk index 1 present, holding the single byte 65 at logical offset 4:
logical content `[0, 0, 0, 0, 65]`.  (Reachable e.g. by writing one byte at
offset 4 of an empty file.) -/
def c3Store : Store :=
  { Store.init 4 0 with
      inodes := (2, ⟨2, 0o100644, 1, 0, 0, 5, 0, 0, 0⟩) ::
        (Store.init 4 0).inodes
      dentries := [((1, "f"), 2)]
      chunks := [((2, 1), [65])]
      nextIno := 3 }

/-- A store whose root inode has atime 5, mtime 6, ctime 7. -/
def c7Store : Store :=
  { Store.init 4096 0 with inodes := [(1, ⟨1, 16877, 2, 0, 0, 0, 5, 6, 7⟩)] }

/-- The delta store produced by `Mkdir("/a", 0o750)` on a fresh store. -/
def c9WitnessStore : Store :=
  (AgentFS.Mkdir (Store.init 4096 0) 0 "/a" 0o750).toOption.getD
    (Store.init 4096 0)

/-- Base layer holding directory `/c/d` with child file `/c/d/e`. -/
def c5Base : Base :=
  [(["c"], ⟨⟨11, 0o40755, 3, 0, 0, 0, 0, 0, 0⟩, [], ""⟩),
    (["c", "d"], ⟨⟨12, 0o40755, 2, 0, 0, 0, 0, 0, 0⟩, [], ""⟩),
    (["c", "d", "e"], ⟨⟨13, 0o100644, 1, 0, 0, 5, 0, 0, 0⟩, [104, 101, 108, 108, 111], ""⟩)]

/-- Overlay over `c5Base` with an empty delta and no whiteouts. -/
def c5Overlay : OverlayFS := ⟨c5Base, Store.init 4096 0, WhiteoutCache.new⟩

/-- Base layer holding a single empty regular file `/x` with inode 7. -/
def c4Base : Base := [(["x"], ⟨⟨7, 0o100644, 1, 0, 0, 0, 3, 4, 5⟩, [], ""⟩)]

/-- Overlay over `c4Base` with an empty delta and no whiteouts. -/
def c4Overlay : OverlayFS := ⟨c4Base, Store.init 4096 0, WhiteoutCache.new⟩

/-- The overlay state after `copyOnWrite` of `/x` on `c4Overlay`. -/
def c4After : OverlayFS :=
  (OverlayFS.copyOnWrite c4Overlay 0 "/x").toOption.getD c4Overlay

/-- Base layer holding a regular file `/f` (inode 21) and a symlink `/l`
(inode 20) whose relative target is `f`. -/
def c4SymBase : Base :=
  [(["f"], ⟨⟨21, 0o100644, 1, 0, 0, 0, 0, 0, 0⟩, [], ""⟩),
    (["l"], ⟨⟨20, 0o120777, 1, 0, 0, 1, 0, 0, 0⟩, [], "f"⟩)]

/-- Overlay over `c4SymBase` with an empty delta and no whiteouts. -/
def c4SymOverlay : OverlayFS := ⟨c4SymBase, Store.init 4096 0, WhiteoutCache.new⟩

/-- The overlay state after `copyOnWrite` of the symlink `/l` on
`c4SymOverlay`. -/
def c4SymAfter : OverlayFS :=
  (OverlayFS.copyOnWrite c4SymOverlay 0 "/l").toOption.getD c4SymOverlay

/-! ## Claim theorems -/

/-! ### Helper lemmas for the copy-up analysis (claim C4) -/

/-- What a successful copy-up transaction guarantees about the resulting
store: the new inode number is the autoincrement counter, the dentry was
absent before and is now the head of the table, the new inode row exists
and carries its own number, and the origin table is untouched. -/
def copyTxSpec (s0 : Store) (pIno : Nat) (nm : String) (sd : Store)
    (ino0 : Nat) : Prop :=
  ino0 = s0.nextIno ∧
    alookup s0.dentries (pIno, nm) = none ∧
    sd.dentries = ((pIno, nm), s0.nextIno) :: s0.dentries ∧
    (∃ iv : Inode, alookup sd.inodes s0.nextIno = some iv ∧
      iv.ino = s0.nextIno) ∧
    sd.origins = s0.origins

/-! ### Helper lemmas for the chunk round-trip (claim C2) -/


/-! ## Theorems -/

@[simp] theorem alookup_nil {α β : Type} [DecidableEq α] (a : α) :
    alookup ([] : List (α × β)) a = none := rfl

@[simp] theorem alookup_cons {α β : Type} [DecidableEq α] (k a : α) (v : β)
    (l : List (α × β)) :
    alookup ((k, v) :: l) a = if k = a then some v else alookup l a := rfl

theorem alookup_aerase {α β : Type} [DecidableEq α] (l : List (α × β)) (a b : α) :
    alookup (aerase l a) b = if a = b then none else alookup l b := by
  induction l with
  | nil => simp [aerase]
  | cons kv rest ih =>
    obtain ⟨k, v⟩ := kv
    have hrest : aerase ((k, v) :: rest) a =
        if k = a then aerase rest a else (k, v) :: aerase rest a := by
      simp only [aerase, List.filter]
      by_cases hka : k = a <;> simp [hka]
    rw [hrest]
    by_cases hka : k = a <;> by_cases hkb : k = b <;> by_cases hab : a = b <;>
      simp_all [alookup]

theorem alookup_ainsert {α β : Type} [DecidableEq α] (l : List (α × β)) (a b : α)
    (v : β) :
    alookup (ainsert l a v) b = if a = b then some v else alookup l b := by
  unfold ainsert
  rw [alookup_cons]
  by_cases h : a = b
  · simp [h]
  · simp [h, alookup_aerase, if_neg h]

@[simp] theorem alookup_ainsert_self {α β : Type} [DecidableEq α]
    (l : List (α × β)) (a : α) (v : β) :
    alookup (ainsert l a v) a = some v := by
  simp [alookup_ainsert]

theorem alookup_ainsert_ne {α β : Type} [DecidableEq α] (l : List (α × β))
    {a b : α} (v : β) (h : a ≠ b) :
    alookup (ainsert l a v) b = alookup l b := by
  simp [alookup_ainsert, h]

theorem alookup_amodify {α β : Type} [DecidableEq α] (l : List (α × β)) (a b : α)
    (f : β → β) :
    alookup (amodify l a f) b =
      if a = b then (alookup l b).map f else alookup l b := by
  induction l with
  | nil => simp [amodify]
  | cons kv rest ih =>
    obtain ⟨k, v⟩ := kv
    have hstep : amodify ((k, v) :: rest) a f =
        (if k = a then (k, f v) else (k, v)) :: amodify rest a f := by
      simp [amodify]
    rw [hstep]
    by_cases hka : k = a
    · subst hka
      rw [if_pos rfl, alookup_cons, ih]
      by_cases hab : k = b <;> simp [hab, alookup]
    · rw [if_neg hka, alookup_cons, ih]
      by_cases hkb : k = b
      · subst hkb
        have hab : a ≠ k := fun h => hka h.symm
        simp [alookup, hab]
      · simp [alookup, hkb]

theorem alookup_amodify_self {α β : Type} [DecidableEq α] (l : List (α × β))
    (a : α) (f : β → β) :
    alookup (amodify l a f) a = (alookup l a).map f := by
  simp [alookup_amodify]

theorem alookup_amodify_ne {α β : Type} [DecidableEq α] (l : List (α × β))
    {a b : α} (f : β → β) (h : a ≠ b) :
    alookup (amodify l a f) b = alookup l b := by
  simp [alookup_amodify, h]

namespace whiteoutNode

@[simp] theorem children_mk (c : List (String × whiteoutNode)) (f : Bool) :
    children (mk c f) = c := rfl

@[simp] theorem isWhiteout_mk (c : List (String × whiteoutNode)) (f : Bool) :
    isWhiteout (mk c f) = f := rfl

/-- A childless, flagless node contains no path at all. -/
theorem memParts_of_empty (n : whiteoutNode) (h1 : n.children.isEmpty = true)
    (h2 : n.isWhiteout = false) : ∀ ps, n.memParts ps = false := by
  intro ps
  obtain ⟨c, f⟩ := n
  cases ps with
  | nil => simpa [memParts] using h2
  | cons p ps =>
    have hc : c = [] := by simpa [children, List.isEmpty_iff] using h1
    subst hc
    simp [memParts, alookup]

@[simp] theorem memParts_empty (ps : List String) :
    whiteoutNode.empty.memParts ps = false := by
  apply memParts_of_empty <;> simp [empty, children, isWhiteout]

/-- Effect of `insertLocked` on exact membership: exactly the inserted
segment list is added. -/
theorem memParts_insertParts (ps : List String) :
    ∀ (t : whiteoutNode) (qs : List String),
      (t.insertParts ps).memParts qs = (decide (qs = ps) || t.memParts qs) := by
  induction ps with
  | nil =>
    intro t qs
    obtain ⟨c, f⟩ := t
    cases qs <;> simp [insertParts, memParts]
  | cons p ps ih =>
    intro t qs
    obtain ⟨c, f⟩ := t
    cases qs with
    | nil => simp [insertParts, memParts]
    | cons q qs =>
      by_cases hpq : p = q
      · subst hpq
        cases halk : alookup c p with
        | none =>
          simp [insertParts, memParts, children, halk, alookup_ainsert, ih]
        | some child =>
          simp [insertParts, memParts, children, halk, alookup_ainsert, ih]
      · have hne : (q :: qs) ≠ (p :: ps) := by
          intro h
          injection h with h1 _
          exact hpq h1.symm
        simp [insertParts, memParts, children, alookup_ainsert, hpq, hne]

/-- If `Remove`'s walk fails to find the full path, nothing changes and the
path was not a member. -/
theorem removeParts_not_found (ps : List String) :
    ∀ t : whiteoutNode, (t.removeParts ps).2 = false →
      (t.removeParts ps).1 = t ∧ t.memParts ps = false := by
  induction ps with
  | nil =>
    intro t h
    obtain ⟨c, f⟩ := t
    simp [removeParts] at h
  | cons p ps ih =>
    intro t h
    obtain ⟨c, f⟩ := t
    cases halk : alookup c p with
    | none =>
      constructor
      · simp [removeParts, halk]
      · simp [memParts, children, halk]
    | some child =>
      by_cases hr2 : (removeParts child ps).2
      · exfalso
        simp only [removeParts, halk, hr2, if_true] at h
        revert h
        split <;> simp
      · have hr2f : (removeParts child ps).2 = false := by
          simpa using hr2
        constructor
        · simp [removeParts, halk, hr2f]
        · simp [memParts, children, halk, (ih child hr2f).2]

/-- Effect of `Remove` on exact membership: exactly the removed segment list
disappears; in particular the bottom-up pruning never discards any other
member. -/
theorem memParts_removeParts (ps : List String) :
    ∀ (t : whiteoutNode) (qs : List String),
      (t.removeParts ps).1.memParts qs =
        if qs = ps then false else t.memParts qs := by
  induction ps with
  | nil =>
    intro t qs
    obtain ⟨c, f⟩ := t
    cases qs <;> simp [removeParts, memParts, children]
  | cons p ps ih =>
    intro t qs
    obtain ⟨c, f⟩ := t
    cases halk : alookup c p with
    | none =>
      have hres : (removeParts (mk c f) (p :: ps)).1 = mk c f := by
        simp [removeParts, halk]
      rw [hres]
      by_cases hq : qs = p :: ps
      · subst hq
        simp [memParts, children, halk]
      · simp [hq]
    | some child =>
      by_cases hr2 : (removeParts child ps).2
      · by_cases hprune :
            ((removeParts child ps).1.children.isEmpty &&
              !(removeParts child ps).1.isWhiteout) = true
        · -- pruning branch: the child node was discarded
          have hempty : (removeParts child ps).1.children.isEmpty = true :=
            (Bool.and_eq_true _ _ |>.mp hprune).1
          have hflag : (removeParts child ps).1.isWhiteout = false := by
            have := (Bool.and_eq_true _ _ |>.mp hprune).2
            simpa using this
          have hsub : ∀ rs, (removeParts child ps).1.memParts rs = false :=
            memParts_of_empty _ hempty hflag
          have hchild : ∀ rs, rs ≠ ps → child.memParts rs = false := by
            intro rs hrs
            have hmem := ih child rs
            rw [if_neg hrs] at hmem
            rw [← hmem, hsub]
          have hres : (removeParts (mk c f) (p :: ps)).1 = mk (aerase c p) f := by
            simp [removeParts, halk, hr2, hprune]
          rw [hres]
          cases qs with
          | nil => simp [memParts, children]
          | cons q qs =>
            by_cases hpq : p = q
            · subst hpq
              by_cases hqs : qs = ps
              · subst hqs
                simp [memParts, children, alookup_aerase]
              · have hne : (p :: qs) ≠ (p :: ps) := by
                  intro h
                  injection h with _ h2
                  exact hqs h2
                simp [memParts, children, alookup_aerase, halk, hne,
                  hchild qs hqs]
            · have hne : (q :: qs) ≠ (p :: ps) := by
                intro h
                injection h with h1 _
                exact hpq h1.symm
              simp [memParts, children, alookup_aerase, hpq, hne]
        · -- no pruning: the cleaned child is written back
          have hres : (removeParts (mk c f) (p :: ps)).1 =
              mk (ainsert c p (removeParts child ps).1) f := by
            simp only [removeParts, halk, hr2, if_true]
            rw [Bool.not_eq_true] at hprune
            simp [hprune]
          rw [hres]
          cases qs with
          | nil => simp [memParts, children]
          | cons q qs =>
            by_cases hpq : p = q
            · subst hpq
              by_cases hqs : qs = ps
              · subst hqs
                simp [memParts, children, alookup_ainsert, ih]
              · have hne : (p :: qs) ≠ (p :: ps) := by
                  intro h
                  injection h with _ h2
                  exact hqs h2
                have hmem := ih child qs
                rw [if_neg hqs] at hmem
                simp [memParts, children, alookup_ainsert, halk, hne, hmem]
            · have hne : (q :: qs) ≠ (p :: ps) := by
                intro h
                injection h with h1 _
                exact hpq h1.symm
              simp [memParts, children, alookup_ainsert, hpq, hne]
      · have hr2f : (removeParts child ps).2 = false := by simpa using hr2
        have hres : (removeParts (mk c f) (p :: ps)).1 = mk c f := by
          simp [removeParts, halk, hr2f]
        rw [hres]
        by_cases hq : qs = p :: ps
        · subst hq
          simp [memParts, children, halk, (removeParts_not_found ps child hr2f).2]
        · simp [hq]

end whiteoutNode

theorem applyWhiteoutOps_memParts (ops : List WhiteoutOp)
    (hops : ∀ op ∈ ops, splitPath op.path ≠ []) :
    ∀ (w : WhiteoutCache) (s : List (List String)),
      (∀ qs, w.root.memParts qs = decide (qs ∈ s)) →
      ∀ qs,
        (applyWhiteoutOps w ops).root.memParts qs =
          decide (qs ∈ whiteoutSetApply s ops) := by
  induction ops with
  | nil => intro w s hinv qs; exact hinv qs
  | cons op ops ih =>
    intro w s hinv qs
    have hop : splitPath op.path ≠ [] := hops op (by simp)
    have hops' : ∀ op' ∈ ops, splitPath op'.path ≠ [] := by
      intro op' hmem
      exact hops op' (by simp [hmem])
    cases op with
    | ins p =>
      refine ih hops' (w.Insert p) (splitPath p :: s) ?_ qs
      intro rs
      rw [WhiteoutCache.Insert, whiteoutNode.memParts_insertParts, hinv rs]
      by_cases h : rs = splitPath p <;> simp [h]
    | rem p =>
      have hne : (splitPath p).isEmpty = false := by
        cases h : splitPath p with
        | nil => exact absurd h (by simpa [WhiteoutOp.path] using hop)
        | cons a l => simp
      refine ih hops' (w.Remove p) (s.filter (fun q => q ≠ splitPath p)) ?_ qs
      intro rs
      rw [WhiteoutCache.Remove]
      simp only [hne, Bool.false_eq_true, if_false]
      rw [whiteoutNode.memParts_removeParts, hinv rs]
      by_cases h : rs = splitPath p
      · subst h
        simp [List.mem_filter]
      · simp [h, List.mem_filter]

/-- C8: after any finite sequence of `Insert`/`Remove` operations on paths
whose lexical normalization is non-root (i.e. `splitPath` is non-empty),
`HasExactWhiteout p` returns `true` exactly for the paths inserted and not
subsequently removed, up to lexical path normalization.  In particular the
bottom-up pruning performed by `Remove` never discards the whiteout of any
other inserted path.  (The restriction to non-root paths is forced by the
counterexample `claim_C8_counterexample`: `Insert "/"` flags the trie root,
which `Remove "/"` cannot clear because it returns early on an empty segment
list.) -/
theorem claim_C8_whiteout_cache_refines_set (ops : List WhiteoutOp)
    (hops : ∀ op ∈ ops, splitPath op.path ≠ []) (q : String) :
    (applyWhiteoutOps WhiteoutCache.new ops).HasExactWhiteout q =
      decide (splitPath q ∈ whiteoutSetApply [] ops) := by
  rw [WhiteoutCache.HasExactWhiteout]
  refine applyWhiteoutOps_memParts ops hops WhiteoutCache.new [] ?_ (splitPath q)
  intro rs
  simp [WhiteoutCache.new]

/-- C8 (counterexample to the unrestricted claim): inserting the root path
`"/"` and then removing it leaves `HasExactWhiteout "/"` equal to `true` even
though `"/"` was inserted and subsequently removed, because `Remove` returns
without clearing anything when the segment list is empty. -/
theorem claim_C8_counterexample :
    (applyWhiteoutOps WhiteoutCache.new
        [WhiteoutOp.ins "/", WhiteoutOp.rem "/"]).HasExactWhiteout "/" = true ∧
      ¬ splitPath "/" ∈
          whiteoutSetApply [] [WhiteoutOp.ins "/", WhiteoutOp.rem "/"] := by
  constructor
  · decide
  · decide

/-- Witness for `claim_C8_whiteout_cache_refines_set` at a concrete operation
sequence and query path. -/
theorem claim_C8_witness :
    (applyWhiteoutOps WhiteoutCache.new
        [WhiteoutOp.ins "/a/b", WhiteoutOp.ins "/a/c",
          WhiteoutOp.rem "/a/b"]).HasExactWhiteout "/a/c" =
      decide (splitPath "/a/c" ∈
        whiteoutSetApply []
          [WhiteoutOp.ins "/a/b", WhiteoutOp.ins "/a/c",
            WhiteoutOp.rem "/a/b"]) :=
  claim_C8_whiteout_cache_refines_set
    [WhiteoutOp.ins "/a/b", WhiteoutOp.ins "/a/c", WhiteoutOp.rem "/a/b"]
    (by decide) "/a/c"

@[simp] theorem isOkE_ok {ε α : Type} (a : α) :
    isOkE (Except.ok a : Except ε α) = true := rfl

@[simp] theorem isOkE_error {ε α : Type} (e : ε) :
    isOkE (Except.error e : Except ε α) = false := rfl

@[simp] theorem bindE_ok {ε α β : Type} (a : α) (f : α → Except ε β) :
    (Except.ok a >>= f) = f a := rfl

@[simp] theorem bindE_error {ε α β : Type} (e : ε) (f : α → Except ε β) :
    ((Except.error e : Except ε α) >>= f) = .error e := rfl

@[simp] theorem mapE_ok {ε α β : Type} (f : α → β) (a : α) :
    (Except.ok a : Except ε α).map f = .ok (f a) := rfl

@[simp] theorem mapE_error {ε α β : Type} (f : α → β) (e : ε) :
    (Except.error e : Except ε α).map f = .error e := rfl

/-- C3 (the code, evaluated at the failing input): for the store `c3Store`
(file of size 5 whose only stored chunk is index 1 = byte 65 at logical
offset 4), reading the in-bounds range `[0, 5)` returns the single byte 65
*at position 0* — the absent chunk 0 is skipped instead of being read as
four zero bytes, so the bytes of chunk 1 are not in position.  The claim
(and spec) require `[0, 0, 0, 0, 65]`. -/
theorem claim_C3_gap_read_failing_input :
    Store.ReadData c3Store 2 0 5 = [65] ∧
      AgentFS.fileRead c3Store 2 5 0 = [65] ∧
      ([65] : List Byte) ≠ [0, 0, 0, 0, 65] := by
  refine ⟨rfl, rfl, by decide⟩

/-- C6 (the code, evaluated at the failing input): from the initial store
(root inode 1 with nlink 2), `Mkdir("/a", 0o755)` creates the directory
inode 2 with link count 1, not 2 — `CreateInodeTx` always inserts nlink 1
and only the parent's count is incremented, so a fresh directory violates
"nlink = 2 + number of directory children". -/
theorem claim_C6_fresh_directory_nlink_failing_input :
    (AgentFS.Mkdir (Store.init 4096 0) 0 "/a" 0o755).map
        (fun s' => (s'.GetInode 2).map (fun i => i.nlink)) =
      .ok (.ok 1) ∧ (1 : Nat) ≠ 2 := by
  refine ⟨rfl, by decide⟩

/-- C9 (counterexample): `Mkdir("/a", 0o1777)` on a fresh store records mode
`S_IFDIR | 0o1777 = 0o41777`, not `S_IFDIR | (0o1777 & 0o777) = 0o40777`:
the delta `Mkdir` passes the full mode argument to `CreateInodeTx` without
masking it to the low 9 permission bits. -/
theorem claim_C9_counterexample :
    (AgentFS.Mkdir (Store.init 4096 0) 0 "/a" 0o1777).map
        (fun s' => (s'.GetInode 2).map (fun i => i.mode)) =
      .ok (.ok 0o41777) ∧ (0o41777 : Nat) ≠ (S_IFDIR ||| (0o1777 &&& 0o777)) := by
  refine ⟨rfl, by decide⟩

/-- C9 (amended): a successful delta `Mkdir(path, mode)` creates, in one
transaction, an inode whose mode is the directory type bit combined with the
*full* mode argument (no masking to the low 9 bits), inserts the dentry
`(parent, name) ↦ new inode`, and increments the parent's link count. -/
theorem claim_C9_mkdir_contract (s : Store) (now : Int) (path : String)
    (mode : Nat) (s' : Store) (pIno : Nat) (nm : String)
    (hres : AgentFS.resolveParentAndName s (splitPath path) = .ok (pIno, nm))
    (hok : AgentFS.Mkdir s now path mode = .ok s')
    (hp : pIno ≠ s.nextIno) :
    s'.GetInode s.nextIno =
        .ok ⟨s.nextIno, S_IFDIR ||| mode, 1, 0, 0, 0, now, now, now⟩ ∧
      alookup s'.dentries (pIno, nm) = some s.nextIno ∧
      (s'.GetInode pIno).map (fun i => i.nlink) =
        (s.GetInode pIno).map (fun i => i.nlink + 1) := by
  unfold AgentFS.Mkdir AgentFS.MkdirParts at hok
  rw [hres] at hok
  simp only [bindE_ok] at hok
  cases halk : alookup (s.CreateInodeTx now (S_IFDIR ||| mode) 0 0).1.dentries
      (pIno, nm) with
  | some old =>
    simp only [Store.CreateDentryTx, halk, bindE_error] at hok
    exact absurd hok (by simp)
  | none =>
    simp only [Store.CreateDentryTx, halk, bindE_ok] at hok
    have hs' : s' = Store.IncrNlinkTx
        { (s.CreateInodeTx now (S_IFDIR ||| mode) 0 0).1 with
            dentries := ((pIno, nm), s.nextIno) ::
              (s.CreateInodeTx now (S_IFDIR ||| mode) 0 0).1.dentries }
        now pIno := by
      cases hok
      rfl
    subst hs'
    refine ⟨?_, ?_, ?_⟩
    · rw [Store.GetInode]
      simp only [Store.IncrNlinkTx, Store.CreateInodeTx]
      rw [alookup_amodify]
      rw [if_neg hp]
      simp [alookup]
    · simp [Store.IncrNlinkTx, Store.CreateInodeTx, alookup]
    · rw [Store.GetInode, Store.GetInode]
      simp only [Store.IncrNlinkTx, Store.CreateInodeTx]
      rw [alookup_amodify_self]
      rw [alookup_cons, if_neg (fun h => hp h.symm)]
      cases alookup s.inodes pIno <;> simp

/-- Witness for `claim_C9_mkdir_contract` at the initial store. -/
theorem claim_C9_witness :
    c9WitnessStore.GetInode 2 =
        .ok ⟨2, S_IFDIR ||| 0o750, 1, 0, 0, 0, 0, 0, 0⟩ ∧
      alookup c9WitnessStore.dentries (1, "a") = some 2 ∧
      (c9WitnessStore.GetInode 1).map (fun i => i.nlink) =
        ((Store.init 4096 0).GetInode 1).map (fun i => i.nlink + 1) :=
  claim_C9_mkdir_contract (Store.init 4096 0) 0 "/a" 0o750 c9WitnessStore 1 "a"
    rfl rfl (by decide)

/-- C7 (counterexample): calling `Utimens` with both times absent on a root
inode whose atime is 5 stores atime = 100 (the current time), not 5:
`Store.UpdateTimes` substitutes `now` for an absent argument instead of
keeping the stored value. -/
theorem claim_C7_counterexample :
    (AgentFS.Utimens c7Store 100 "/" none none).map
        (fun s' => (s'.GetInode 1).map (fun i => i.atime)) =
      .ok (.ok 100) ∧ (100 : Int) ≠ 5 := by
  refine ⟨rfl, by decide⟩

/-- C7 (amended): for a resolvable delta path, `Utimens` replaces a present
atime/mtime argument with the given value, replaces an *absent* argument
with the current time (not the previously stored value), and always sets
the status-change time to the current time. -/
theorem claim_C7_utimens_contract (s : Store) (now : Int) (path : String)
    (atime mtime : Option Int) (ino : Nat) (i : Inode)
    (hres : AgentFS.resolvePath s path = .ok ino)
    (hi : s.GetInode ino = .ok i) :
    AgentFS.Utimens s now path atime mtime =
        .ok (s.UpdateTimes now ino atime mtime) ∧
      (s.UpdateTimes now ino atime mtime).GetInode ino =
        .ok { i with
                atime := atime.getD now
                mtime := mtime.getD now
                ctime := now } := by
  have hlk : alookup s.inodes ino = some i := by
    rw [Store.GetInode] at hi
    cases h : alookup s.inodes ino <;> rw [h] at hi <;> simp_all
  constructor
  · rw [AgentFS.Utimens, hres]
    rfl
  · rw [Store.GetInode]
    simp only [Store.UpdateTimes]
    rw [alookup_amodify_self, hlk]
    rfl

/-- Witness for `claim_C7_utimens_contract`: present atime, absent mtime. -/
theorem claim_C7_witness :
    AgentFS.Utimens c7Store 100 "/" (some 42) none =
        .ok (c7Store.UpdateTimes 100 1 (some 42) none) ∧
      (c7Store.UpdateTimes 100 1 (some 42) none).GetInode 1 =
        .ok ⟨1, 16877, 2, 0, 0, 0, 42, 100, 100⟩ :=
  claim_C7_utimens_contract c7Store 100 "/" (some 42) none 1
    ⟨1, 16877, 2, 0, 0, 0, 5, 6, 7⟩ rfl rfl

/-- C5 (the code, evaluated at the failing input): the base layer holds the
directory `/c/d` with the visible child `/c/d/e` (its `Lstat` succeeds and
no whiteout covers it), the delta is empty, yet `OverlayFS.Rmdir("/c/d")`
*succeeds* and installs a whiteout at `/c/d` — the not-empty check is only
performed by the delta layer, which is skipped for a base-only directory. -/
theorem claim_C5_rmdir_failing_input :
    isOkE (OverlayFS.Lstat c5Overlay "/c/d/e") = true ∧
      (OverlayFS.Rmdir c5Overlay 0 "/c/d").map
          (fun o' => o'.whiteout.HasExactWhiteout "/c/d") = .ok true := by
  refine ⟨rfl, rfl⟩

/-- A whiteout on a non-root member path is seen by the ancestor walk of
every extension of that path (the whiteout covers its whole subtree). -/
theorem whiteoutNode.ancParts_of_memParts_prefix :
    ∀ (ps : List String) (t : whiteoutNode) (rest : List String), ps ≠ [] →
      t.memParts ps = true → t.ancParts (ps ++ rest) = true := by
  intro ps
  induction ps with
  | nil => intro t rest h; exact absurd rfl h
  | cons p ps ih =>
    intro t rest _ hmem
    obtain ⟨c, f⟩ := t
    simp only [whiteoutNode.memParts, whiteoutNode.children] at hmem
    cases halk : alookup c p with
    | none => rw [halk] at hmem; simp at hmem
    | some child =>
      rw [halk] at hmem
      simp only [List.cons_append, whiteoutNode.ancParts, whiteoutNode.children,
        halk]
      cases ps with
      | nil =>
        have : child.isWhiteout = true := by
          simpa [whiteoutNode.memParts] using hmem
        simp [this]
      | cons q qs =>
        have hrec := ih child rest (by simp) hmem
        rw [Bool.or_eq_true]
        exact Or.inr hrec

/-- Exact membership of a non-root path implies the ancestor walk fires on
the path itself. -/
theorem whiteoutNode.ancParts_of_memParts (t : whiteoutNode) (p : String)
    (ps : List String) (h : t.memParts (p :: ps) = true) :
    t.ancParts (p :: ps) = true := by
  simpa using whiteoutNode.ancParts_of_memParts_prefix (p :: ps) t [] (by simp) h

/-- C1: `OverlayFS.Lstat(p)` succeeds exactly when (p is present in the
delta and no ancestor whiteout covers p) or (p is present in the base, no
ancestor whiteout covers p, and no exact whiteout exists at p); every
failure is not-found.  "An ancestor whiteout covers p" is the trie's
ancestor walk, which fires on a whiteout at p itself or at any proper
ancestor (a whiteout erases the path and everything beneath it).  The
hypothesis that the trie root is unflagged is spec invariant 6 ("the root
`/` has no whiteout"), established at every reachable state. -/
theorem claim_C1_lstat_merge_correctness (o : OverlayFS) (path : String)
    (hroot : o.whiteout.root.isWhiteout = false) :
    (isOkE (OverlayFS.Lstat o path) =
      ((o.existsInDelta path && !o.whiteout.HasWhiteoutAncestor path) ||
        (o.existsInBase path && !o.whiteout.HasWhiteoutAncestor path &&
          !o.whiteout.HasExactWhiteout path))) ∧
      ∀ e, OverlayFS.Lstat o path = .error e → e = FsErr.notFound := by
  constructor
  · rw [OverlayFS.Lstat, OverlayFS.existsInDelta, OverlayFS.existsInBase]
    by_cases hanc : o.whiteout.HasWhiteoutAncestor path = true
    · simp [hanc]
    · have hancf : o.whiteout.HasWhiteoutAncestor path = false := by
        simpa using hanc
      rw [hancf]
      cases hd : AgentFS.Lstat o.delta path with
      | ok st => simp [hancf]
      | error e =>
        cases hb : baseLstat o.base path with
        | error e2 => simp [hb, hancf]
        | ok st =>
          have hex : o.whiteout.HasExactWhiteout path = false := by
            rw [WhiteoutCache.HasExactWhiteout]
            cases hsp : splitPath path with
            | nil => simpa [whiteoutNode.memParts] using hroot
            | cons p ps =>
              by_contra hmem
              have hmem' : o.whiteout.root.memParts (p :: ps) = true := by
                simpa using hmem
              have : o.whiteout.root.ancParts (p :: ps) = true :=
                whiteoutNode.ancParts_of_memParts _ _ _ hmem'
              rw [WhiteoutCache.HasWhiteoutAncestor, hsp] at hancf
              rw [hancf] at this
              exact Bool.false_ne_true this
          simp [hb, hancf, hex]
  · intro e he
    rw [OverlayFS.Lstat] at he
    by_cases hanc : o.whiteout.HasWhiteoutAncestor path = true
    · rw [if_pos hanc] at he
      cases he
      rfl
    · rw [if_neg hanc] at he
      cases hd : AgentFS.Lstat o.delta path with
      | ok st => rw [hd] at he; cases he
      | error e2 =>
        rw [hd] at he
        rw [baseLstat] at he
        cases hb : alookup o.base (splitPath path) with
        | some be => rw [hb] at he; cases he
        | none => rw [hb] at he; cases he; rfl

/-- Witness for `claim_C1_lstat_merge_correctness` at the `c5Overlay`
fixture and the base-only path `/c/d/e`. -/
theorem claim_C1_witness :
    (isOkE (OverlayFS.Lstat c5Overlay "/c/d/e") =
      ((c5Overlay.existsInDelta "/c/d/e" &&
          !c5Overlay.whiteout.HasWhiteoutAncestor "/c/d/e") ||
        (c5Overlay.existsInBase "/c/d/e" &&
          !c5Overlay.whiteout.HasWhiteoutAncestor "/c/d/e" &&
          !c5Overlay.whiteout.HasExactWhiteout "/c/d/e"))) ∧
      ∀ e, OverlayFS.Lstat c5Overlay "/c/d/e" = .error e → e = FsErr.notFound :=
  claim_C1_lstat_merge_correctness c5Overlay "/c/d/e" rfl

/-- C10: removing (unlink) a path that exists in the base as a directory and
is not present in the delta succeeds — no is-directory rejection — and
installs a whiteout covering the path and its entire subtree (a whiteout row
in the store, the exact flag in the trie, and the ancestor walk of every
extension of the path fires); moreover `OverlayFS.Remove` returns
is-directory only when the target is present in the delta. -/
theorem claim_C10_remove_base_directory (o : OverlayFS) (now : Int)
    (path : String) (bs : Stats)
    (hanc : o.whiteout.HasWhiteoutAncestor path = false)
    (hdelta : o.existsInDelta path = false)
    (hbase : baseLstat o.base path = .ok bs)
    (_hdir : bs.IsDir = true)
    (hparts : splitPath path ≠ []) :
    (OverlayFS.Remove o now path =
        .ok { o with
                delta := o.delta.CreateWhiteout now path
                whiteout := o.whiteout.Insert path } ∧
      (o.whiteout.Insert path).HasExactWhiteout path = true ∧
      (∀ rest,
        (o.whiteout.Insert path).root.ancParts (splitPath path ++ rest) =
          true) ∧
      alookup (o.delta.CreateWhiteout now path).whiteouts
          (normalizePath path) = some now) ∧
    ∀ (o2 : OverlayFS) (now2 : Int) (q : String),
      OverlayFS.Remove o2 now2 q = .error FsErr.isDir →
        o2.existsInDelta q = true := by
  have hbaseOk : o.existsInBase path = true := by
    rw [OverlayFS.existsInBase, hbase]
    rfl
  have hmem : (o.whiteout.Insert path).HasExactWhiteout path = true := by
    rw [WhiteoutCache.HasExactWhiteout, WhiteoutCache.Insert,
      whiteoutNode.memParts_insertParts]
    simp
  refine ⟨⟨?_, hmem, ?_, ?_⟩, ?_⟩
  · rw [OverlayFS.Remove, hanc]
    simp only [Bool.false_eq_true, if_false, hdelta, hbaseOk]
    rfl
  · intro rest
    exact whiteoutNode.ancParts_of_memParts_prefix (splitPath path)
      (o.whiteout.Insert path).root rest hparts
      (by
        rw [WhiteoutCache.Insert, whiteoutNode.memParts_insertParts]
        simp)
  · rw [Store.CreateWhiteout]
    simp
  · intro o2 now2 q he
    rw [OverlayFS.Remove] at he
    by_cases h2anc : o2.whiteout.HasWhiteoutAncestor q = true
    · rw [if_pos h2anc] at he
      cases he
    · rw [if_neg h2anc] at he
      by_cases h2d : o2.existsInDelta q = true
      · exact h2d
      · have h2df : o2.existsInDelta q = false := by simpa using h2d
        rw [h2df] at he
        by_cases h2b : o2.existsInBase q = true
        · rw [h2b] at he
          simp at he
        · have h2bf : o2.existsInBase q = false := by simpa using h2b
          rw [h2bf] at he
          simp at he

@[simp] theorem Store.dentries_WriteData (s : Store) (ino o : Nat) (b : List Byte) :
    (s.WriteData ino o b).dentries = s.dentries := by
  rw [Store.WriteData]; split <;> rfl

@[simp] theorem Store.inodes_WriteData (s : Store) (ino o : Nat) (b : List Byte) :
    (s.WriteData ino o b).inodes = s.inodes := by
  rw [Store.WriteData]; split <;> rfl

@[simp] theorem Store.origins_WriteData (s : Store) (ino o : Nat) (b : List Byte) :
    (s.WriteData ino o b).origins = s.origins := by
  rw [Store.WriteData]; split <;> rfl

@[simp] theorem Store.chunkSize_WriteData (s : Store) (ino o : Nat) (b : List Byte) :
    (s.WriteData ino o b).chunkSize = s.chunkSize := by
  rw [Store.WriteData]; split <;> rfl

@[simp] theorem Store.dentries_UpdateSize (s : Store) (now : Int) (ino sz : Nat) :
    (s.UpdateSize now ino sz).dentries = s.dentries := rfl

@[simp] theorem Store.inodes_UpdateSize (s : Store) (now : Int) (ino sz : Nat) :
    (s.UpdateSize now ino sz).inodes = amodify s.inodes ino
      (fun i => { i with size := sz, mtime := now, ctime := now }) := rfl

@[simp] theorem Store.origins_UpdateSize (s : Store) (now : Int) (ino sz : Nat) :
    (s.UpdateSize now ino sz).origins = s.origins := rfl

@[simp] theorem Store.dentries_UpdateTimes (s : Store) (now : Int) (ino : Nat)
    (at' mt : Option Int) : (s.UpdateTimes now ino at' mt).dentries = s.dentries := rfl

@[simp] theorem Store.dentries_CreateSymlinkTx (s : Store) (ino : Nat) (t : String) :
    (s.CreateSymlinkTx ino t).dentries = s.dentries := rfl

@[simp] theorem Store.inodes_CreateSymlinkTx (s : Store) (ino : Nat) (t : String) :
    (s.CreateSymlinkTx ino t).inodes = s.inodes := rfl

@[simp] theorem Store.origins_CreateSymlinkTx (s : Store) (ino : Nat) (t : String) :
    (s.CreateSymlinkTx ino t).origins = s.origins := rfl

@[simp] theorem Store.dentries_IncrNlinkTx (s : Store) (now : Int) (ino : Nat) :
    (s.IncrNlinkTx now ino).dentries = s.dentries := rfl

@[simp] theorem Store.inodes_IncrNlinkTx (s : Store) (now : Int) (ino : Nat) :
    (s.IncrNlinkTx now ino).inodes = amodify s.inodes ino
      (fun i => { i with nlink := i.nlink + 1, ctime := now }) := rfl

@[simp] theorem Store.origins_IncrNlinkTx (s : Store) (now : Int) (ino : Nat) :
    (s.IncrNlinkTx now ino).origins = s.origins := rfl

@[simp] theorem Store.dentries_AddOrigin (s : Store) (d b : Nat) :
    (s.AddOrigin d b).dentries = s.dentries := rfl

@[simp] theorem Store.inodes_AddOrigin (s : Store) (d b : Nat) :
    (s.AddOrigin d b).inodes = s.inodes := rfl

@[simp] theorem Store.origins_AddOrigin (s : Store) (d b : Nat) :
    (s.AddOrigin d b).origins = ainsert s.origins d b := rfl

@[simp] theorem Store.fst_dentries_CreateInodeTx (s : Store) (now : Int)
    (mode uid gid : Nat) :
    (s.CreateInodeTx now mode uid gid).1.dentries = s.dentries := rfl

@[simp] theorem Store.fst_inodes_CreateInodeTx (s : Store) (now : Int)
    (mode uid gid : Nat) :
    (s.CreateInodeTx now mode uid gid).1.inodes =
      (s.nextIno, ⟨s.nextIno, mode, 1, uid, gid, 0, now, now, now⟩) ::
        s.inodes := rfl

@[simp] theorem Store.fst_origins_CreateInodeTx (s : Store) (now : Int)
    (mode uid gid : Nat) :
    (s.CreateInodeTx now mode uid gid).1.origins = s.origins := rfl

@[simp] theorem Store.snd_CreateInodeTx (s : Store) (now : Int)
    (mode uid gid : Nat) :
    (s.CreateInodeTx now mode uid gid).2 = s.nextIno := rfl

/-- `resolveParts` only reads the dentry table. -/
theorem resolveParts_congr (s s' : Store) (h : s'.dentries = s.dentries) :
    ∀ (start : Nat) (ps : List String),
      AgentFS.resolveParts s' start ps = AgentFS.resolveParts s start ps := by
  intro start ps
  induction ps generalizing start with
  | nil => rfl
  | cons p ps ih =>
    simp only [AgentFS.resolveParts, Store.Lookup, h]
    cases alookup s.dentries (start, p) with
    | none => rfl
    | some child => exact ih child

/-- Adding a dentry under a key absent from the table does not disturb any
successful resolution. -/
theorem resolveParts_cons_dentry (s s' : Store) (k : Nat × String) (v : Nat)
    (habs : alookup s.dentries k = none)
    (hd : s'.dentries = (k, v) :: s.dentries) :
    ∀ (start : Nat) (ps : List String) (r : Nat),
      AgentFS.resolveParts s start ps = .ok r →
      AgentFS.resolveParts s' start ps = .ok r := by
  intro start ps
  induction ps generalizing start with
  | nil => intro r h; exact h
  | cons p ps ih =>
    intro r h
    cases halk : alookup s.dentries (start, p) with
    | none =>
      simp only [AgentFS.resolveParts, Store.Lookup, halk] at h
      cases h
    | some child =>
      simp only [AgentFS.resolveParts, Store.Lookup, halk] at h
      have hkne : k ≠ (start, p) := by
        intro hk
        rw [hk] at habs
        rw [habs] at halk
        cases halk
      simp only [AgentFS.resolveParts, Store.Lookup, hd, alookup_cons,
        if_neg hkne, halk]
      exact ih child r h

/-- Splitting the final hop off a resolution walk. -/
theorem resolveParts_append (s : Store) :
    ∀ (xs : List String) (y : String) (start : Nat),
      AgentFS.resolveParts s start (xs ++ [y]) =
        (AgentFS.resolveParts s start xs >>= fun r => s.Lookup r y) := by
  intro xs
  induction xs with
  | nil =>
    intro y start
    simp only [List.nil_append, AgentFS.resolveParts, bindE_ok]
    cases s.Lookup start y <;> rfl
  | cons p xs ih =>
    intro y start
    simp only [List.cons_append, AgentFS.resolveParts]
    cases s.Lookup start p with
    | ok child => exact ih y child
    | error e => rfl

theorem dropLast_append_getLastD (l : List String) (h : l ≠ []) :
    l.dropLast ++ [l.getLastD ""] = l := by
  induction l with
  | nil => exact absurd rfl h
  | cons a l ih =>
    cases l with
    | nil => rfl
    | cons b m =>
      have hrec := ih (by simp)
      simpa [List.dropLast] using hrec

theorem Stats.not_regular_of_symlink (st : Stats) (h : st.IsSymlink = true) :
    st.IsRegular = false := by
  have h' : st.mode &&& S_IFMT = S_IFLNK := by
    simpa [Stats.IsSymlink] using h
  simp [Stats.IsRegular, h', S_IFLNK, S_IFREG]

theorem Stats.not_regular_of_dir (st : Stats) (h : st.IsDir = true) :
    st.IsRegular = false := by
  have h' : st.mode &&& S_IFMT = S_IFDIR := by
    simpa [Stats.IsDir] using h
  simp [Stats.IsRegular, h', S_IFDIR, S_IFREG]

theorem Stats.not_symlink_of_dir (st : Stats) (h : st.IsDir = true) :
    st.IsSymlink = false := by
  have h' : st.mode &&& S_IFMT = S_IFDIR := by
    simpa [Stats.IsDir] using h
  simp [Stats.IsSymlink, h', S_IFDIR, S_IFLNK]

theorem Stats.not_symlink_of_regular (st : Stats) (h : st.IsRegular = true) :
    st.IsSymlink = false := by
  have h' : st.mode &&& S_IFMT = S_IFREG := by
    simpa [Stats.IsRegular] using h
  simp [Stats.IsSymlink, h', S_IFREG, S_IFLNK]

/-- `os.Stat`'s walk answers like `os.Lstat` when the final component is
not a symlink. -/
theorem baseStatLoop_not_symlink (b : Base) (parts : List String)
    (e : BaseEntry) (fuel : Nat) (hf : fuel ≠ 0)
    (halk : alookup b parts = some e) (hns : e.stats.IsSymlink = false) :
    baseStatLoop b parts fuel = .ok e.stats := by
  cases fuel with
  | zero => exact absurd rfl hf
  | succ f =>
    simp only [baseStatLoop, halk, hns, Bool.false_eq_true, if_false]

/-- A fresh dentry on an absent key makes the full path resolve to the new
inode. -/
theorem resolveParts_new_dentry (s0 sd : Store) (parts : List String)
    (pIno ino0 : Nat) (nm : String)
    (hparts : parts ≠ [])
    (hres0 : AgentFS.resolveParts s0 1 parts.dropLast = .ok pIno)
    (hnm : parts.getLastD "" = nm)
    (habs : alookup s0.dentries (pIno, nm) = none)
    (hd : sd.dentries = ((pIno, nm), ino0) :: s0.dentries) :
    AgentFS.resolveParts sd 1 parts = .ok ino0 := by
  conv_lhs => rw [← dropLast_append_getLastD parts hparts]
  rw [resolveParts_append]
  have h1 : AgentFS.resolveParts sd 1 parts.dropLast = .ok pIno :=
    resolveParts_cons_dentry s0 sd (pIno, nm) ino0 habs hd 1 _ pIno hres0
  rw [h1, bindE_ok, hnm, Store.Lookup, hd, alookup_cons, if_pos rfl]

/-- The merged `Stat` after a copy-up: the delta resolves the path to the
new inode and the origin mapping rewrites the reported number to the base
inode. -/
theorem stat_after_copyup (o' : OverlayFS) (path : String) (ino0 : Nat)
    (inoVal : Inode) (baseIno : Nat)
    (hanc : o'.whiteout.HasWhiteoutAncestor path = false)
    (hres : AgentFS.resolveParts o'.delta 1 (splitPath path) = .ok ino0)
    (hi : alookup o'.delta.inodes ino0 = some inoVal)
    (hio : inoVal.ino = ino0)
    (horig : alookup o'.delta.origins ino0 = some baseIno)
    (hb0 : baseIno ≠ 0) :
    (OverlayFS.Stat o' path).map Stats.ino = .ok baseIno := by
  rw [OverlayFS.Stat, hanc]
  simp only [Bool.false_eq_true, if_false]
  rw [AgentFS.Stat, AgentFS.Lstat, AgentFS.resolvePath, hres, bindE_ok,
    Store.GetInode, hi]
  simp only [bindE_ok, mapE_ok]
  rw [OverlayFS.applyOrigin]
  have hsio : (inodeToStats inoVal).ino = ino0 := hio
  simp only [Store.GetOrigin, hsio, horig, Option.getD_some]
  rw [if_pos hb0]

theorem copyRegularTx_spec (s0 : Store) (now : Int) (pIno : Nat) (nm : String)
    (mode uid gid : Nat) (data : List Byte) (sd : Store) (ino0 : Nat)
    (hok : AgentFS.copyRegularTx s0 now pIno nm mode uid gid data =
      .ok (sd, ino0)) :
    copyTxSpec s0 pIno nm sd ino0 := by
  simp only [AgentFS.copyRegularTx, Store.CreateDentryTx] at hok
  split at hok
  · simp at hok
  · rename_i halk
    simp only [Store.dentries_UpdateSize, apply_ite Store.dentries,
      Store.dentries_WriteData, Store.fst_dentries_CreateInodeTx, ite_self,
      Store.snd_CreateInodeTx] at halk
    simp only [bindE_ok, Except.ok.injEq, Prod.mk.injEq] at hok
    obtain ⟨h1, h2⟩ := hok
    subst h1
    subst h2
    refine ⟨by simp, halk, ?_, ?_, ?_⟩
    · simp only [Store.dentries_UpdateSize, apply_ite Store.dentries,
        Store.dentries_WriteData, Store.fst_dentries_CreateInodeTx, ite_self,
        Store.snd_CreateInodeTx]
    · refine ⟨⟨s0.nextIno, mode, 1, uid, gid, data.length, now, now, now⟩,
        ?_, rfl⟩
      simp only [Store.inodes_UpdateSize, apply_ite Store.inodes,
        Store.inodes_WriteData, Store.fst_inodes_CreateInodeTx, ite_self,
        Store.snd_CreateInodeTx]
      rw [alookup_amodify_self, alookup_cons, if_pos rfl]
      rfl
    · simp only [Store.origins_UpdateSize, apply_ite Store.origins,
        Store.origins_WriteData, Store.fst_origins_CreateInodeTx, ite_self]

theorem copySymlinkTx_spec (s0 : Store) (now : Int) (pIno : Nat) (nm : String)
    (mode uid gid : Nat) (target : String) (sd : Store) (ino0 : Nat)
    (hok : AgentFS.copySymlinkTx s0 now pIno nm mode uid gid target =
      .ok (sd, ino0)) :
    copyTxSpec s0 pIno nm sd ino0 := by
  simp only [AgentFS.copySymlinkTx, Store.CreateDentryTx] at hok
  split at hok
  · simp at hok
  · rename_i halk
    simp only [Store.dentries_UpdateSize, Store.dentries_CreateSymlinkTx,
      Store.fst_dentries_CreateInodeTx, Store.snd_CreateInodeTx] at halk
    simp only [bindE_ok, Except.ok.injEq, Prod.mk.injEq] at hok
    obtain ⟨h1, h2⟩ := hok
    subst h1
    subst h2
    refine ⟨by simp, halk, ?_, ?_, ?_⟩
    · simp only [Store.dentries_UpdateSize, Store.dentries_CreateSymlinkTx,
        Store.fst_dentries_CreateInodeTx, Store.snd_CreateInodeTx]
    · refine ⟨⟨s0.nextIno, mode, 1, uid, gid, target.utf8ByteSize, now, now,
        now⟩, ?_, rfl⟩
      simp only [Store.inodes_UpdateSize, Store.inodes_CreateSymlinkTx,
        Store.fst_inodes_CreateInodeTx, Store.snd_CreateInodeTx]
      rw [alookup_amodify_self, alookup_cons, if_pos rfl]
      rfl
    · simp only [Store.origins_UpdateSize, Store.origins_CreateSymlinkTx,
        Store.fst_origins_CreateInodeTx]

theorem copyDirTx_spec (s0 : Store) (now : Int) (pIno : Nat) (nm : String)
    (mode uid gid : Nat) (sd : Store) (ino0 : Nat)
    (hok : AgentFS.copyDirTx s0 now pIno nm mode uid gid = .ok (sd, ino0)) :
    copyTxSpec s0 pIno nm sd ino0 := by
  simp only [AgentFS.copyDirTx, Store.CreateDentryTx] at hok
  split at hok
  · simp at hok
  · rename_i halk
    simp only [Store.fst_dentries_CreateInodeTx, Store.snd_CreateInodeTx]
      at halk
    simp only [bindE_ok, Except.ok.injEq, Prod.mk.injEq] at hok
    obtain ⟨h1, h2⟩ := hok
    subst h1
    subst h2
    refine ⟨by simp, halk, ?_, ?_, ?_⟩
    · simp only [Store.dentries_IncrNlinkTx, Store.fst_dentries_CreateInodeTx,
        Store.snd_CreateInodeTx]
    · by_cases hpi : pIno = s0.nextIno
      · refine ⟨⟨s0.nextIno, mode, 2, uid, gid, 0, now, now, now⟩, ?_, rfl⟩
        simp only [Store.inodes_IncrNlinkTx, Store.fst_inodes_CreateInodeTx,
          Store.snd_CreateInodeTx]
        rw [hpi, alookup_amodify_self, alookup_cons, if_pos rfl]
        rfl
      · refine ⟨⟨s0.nextIno, mode, 1, uid, gid, 0, now, now, now⟩, ?_, rfl⟩
        simp only [Store.inodes_IncrNlinkTx, Store.fst_inodes_CreateInodeTx,
          Store.snd_CreateInodeTx]
        rw [alookup_amodify_ne _ _ hpi, alookup_cons, if_pos rfl]
    · simp only [Store.origins_IncrNlinkTx, Store.fst_origins_CreateInodeTx]

/-- Counterexample to C4 as stated, which covers every base-only path: for
the base-only symlink `/l` (inode 20, target the regular file `f` with
inode 21), copy-up succeeds, but the merged `stat` follows the link before
the copy-up — reporting the target's inode 21 via `os.Stat` — while after
`copyOnWrite("/l")` the delta answers with the symlink's own base inode 20
from the origin mapping, so `stat(p).ino` is not preserved. -/
theorem claim_C4_counterexample :
    isOkE (OverlayFS.copyOnWrite c4SymOverlay 0 "/l") = true ∧
      OverlayFS.existsInDelta c4SymOverlay "/l" = false ∧
      OverlayFS.existsInBase c4SymOverlay "/l" = true ∧
      (OverlayFS.Stat c4SymOverlay "/l").map Stats.ino = .ok 21 ∧
      (OverlayFS.Stat c4SymAfter "/l").map Stats.ino = .ok 20 :=
  ⟨by rfl, by rfl, by rfl, by rfl, by rfl⟩

/-- C4 (amended): for a path present only in the base layer as a regular
file or a directory — not a symlink — a successful `copyOnWrite` leaves
`stat(p).ino` unchanged: before the copy-up the merged stat reports the
base stats (for a non-symlink entry `HostFS.Stat` agrees with
`HostFS.Lstat`), and afterwards the delta answers with the new inode whose
reported number is rewritten to the base inode recorded in the origin
mapping.  For a base-only symlink the equality fails
(`claim_C4_counterexample`): `stat` follows the link before the copy-up
but reports the link's own base inode after it. -/
theorem claim_C4_copyup_inode_stability (o : OverlayFS) (now : Int)
    (path : String) (bs : Stats) (o' : OverlayFS)
    (hanc : o.whiteout.HasWhiteoutAncestor path = false)
    (hdelta : o.existsInDelta path = false)
    (hbase : baseLstat o.base path = .ok bs)
    (hino : bs.ino ≠ 0)
    (htype : bs.IsRegular = true ∨ bs.IsDir = true)
    (hcow : OverlayFS.copyOnWrite o now path = .ok o') :
    OverlayFS.Stat o path = .ok bs ∧
      (OverlayFS.Stat o' path).map Stats.ino = .ok bs.ino := by
  have hedE : ∃ e, AgentFS.Lstat o.delta path = .error e := by
    cases h : AgentFS.Lstat o.delta path with
    | ok st =>
      rw [OverlayFS.existsInDelta, h] at hdelta
      simp at hdelta
    | error e => exact ⟨e, rfl⟩
  obtain ⟨ed, hed⟩ := hedE
  have hns : bs.IsSymlink = false := by
    rcases htype with hreg | hdir
    · exact Stats.not_symlink_of_regular bs hreg
    · exact Stats.not_symlink_of_dir bs hdir
  have hbefore : OverlayFS.Stat o path = .ok bs := by
    rw [OverlayFS.Stat, hanc]
    simp only [Bool.false_eq_true, if_false, AgentFS.Stat, hed]
    rw [baseLstat] at hbase
    rw [baseStat]
    split at hbase
    · rename_i e halk
      simp only [Except.ok.injEq] at hbase
      rw [baseStatLoop_not_symlink o.base (splitPath path) e 40 (by omega)
        halk (by rw [hbase]; exact hns), hbase]
    · simp at hbase
  refine ⟨hbefore, ?_⟩
  rw [OverlayFS.copyOnWrite, hdelta] at hcow
  simp only [Bool.false_eq_true, if_false] at hcow
  rw [hbase] at hcow
  simp only [bindE_ok] at hcow
  cases hcfb : AgentFS.CopyFromBase o.delta now o.base path with
  | error e => rw [hcfb] at hcow; simp at hcow
  | ok r =>
    rw [hcfb] at hcow
    simp only [bindE_ok, Except.ok.injEq] at hcow
    subst hcow
    obtain ⟨sd, ino0⟩ := r
    rw [AgentFS.CopyFromBase, hbase] at hcfb
    simp only [bindE_ok] at hcfb
    cases hens : AgentFS.EnsureParentDirs o.delta now (splitPath path) with
    | error e => rw [hens] at hcfb; simp at hcfb
    | ok s0 =>
      rw [hens] at hcfb
      simp only [bindE_ok] at hcfb
      cases hpn : AgentFS.resolveParentAndName s0 (splitPath path) with
      | error e => rw [hpn] at hcfb; simp at hcfb
      | ok pn =>
        obtain ⟨pIno, nm⟩ := pn
        rw [hpn] at hcfb
        simp only [bindE_ok] at hcfb
        have hparts : splitPath path ≠ [] := by
          intro hsp
          rw [hsp] at hpn
          simp [AgentFS.resolveParentAndName] at hpn
        have hkey : AgentFS.resolveParts s0 1 (splitPath path).dropLast =
            .ok pIno ∧ (splitPath path).getLastD "" = nm := by
          cases hsp : splitPath path with
          | nil => exact absurd hsp hparts
          | cons p ps =>
            rw [hsp] at hpn
            have heq : AgentFS.resolveParentAndName s0 (p :: ps) =
                (AgentFS.resolveParts s0 1 ((p :: ps).dropLast) >>=
                  fun parentIno =>
                    .ok (parentIno, (p :: ps).getLastD "")) := rfl
            rw [heq] at hpn
            cases hr : AgentFS.resolveParts s0 1 ((p :: ps).dropLast) with
            | error e => rw [hr] at hpn; simp at hpn
            | ok pi =>
              rw [hr] at hpn
              simp only [bindE_ok, Except.ok.injEq, Prod.mk.injEq] at hpn
              obtain ⟨h3, h4⟩ := hpn
              subst h3
              subst h4
              exact ⟨by simp [hr], rfl⟩
        obtain ⟨hres0, hnm⟩ := hkey
        have finish : copyTxSpec s0 pIno nm sd ino0 →
            (OverlayFS.Stat
                { o with delta := sd.AddOrigin ino0 bs.ino } path).map
              Stats.ino = .ok bs.ino := by
          rintro ⟨hino0, habs, hd, ⟨iv, hiv, hivino⟩, _horig⟩
          subst hino0
          refine stat_after_copyup _ path s0.nextIno iv bs.ino hanc ?_ ?_
            hivino ?_ hino
          · have hsd : AgentFS.resolveParts sd 1 (splitPath path) =
                .ok s0.nextIno :=
              resolveParts_new_dentry s0 sd (splitPath path) pIno s0.nextIno
                nm hparts hres0 hnm habs hd
            rw [resolveParts_congr sd _ (Store.dentries_AddOrigin sd _ _)]
            exact hsd
          · rw [Store.inodes_AddOrigin]
            exact hiv
          · rw [Store.origins_AddOrigin, alookup_ainsert_self]
        rcases htype with hreg | hdir
        · rw [if_pos hreg] at hcfb
          cases hdata : baseReadAt o.base path bs.size 0 with
          | error e => rw [hdata] at hcfb; simp at hcfb
          | ok data =>
            rw [hdata] at hcfb
            simp only [bindE_ok] at hcfb
            exact finish (copyRegularTx_spec s0 now pIno nm bs.mode bs.uid
              bs.gid data sd ino0 hcfb)
        · have hregf : bs.IsRegular = false := Stats.not_regular_of_dir bs hdir
          rw [if_neg (by simp [hregf]), if_neg (by simp [hns]),
            if_pos hdir] at hcfb
          exact finish (copyDirTx_spec s0 now pIno nm bs.mode bs.uid bs.gid
            sd ino0 hcfb)

theorem alookup_mem {α β : Type} [DecidableEq α] :
    ∀ (l : List (α × β)) (a : α) (v : β), alookup l a = some v → (a, v) ∈ l := by
  intro l
  induction l with
  | nil => intro a v h; cases h
  | cons kv rest ih =>
    intro a v h
    obtain ⟨k, w⟩ := kv
    rw [alookup_cons] at h
    by_cases hk : k = a
    · rw [if_pos hk] at h
      cases h
      subst hk
      exact List.mem_cons_self _ _
    · rw [if_neg hk] at h
      exact List.mem_cons_of_mem _ (ih a v h)

namespace Store

theorem listWrite_length (dst : List Byte) (pos : Nat) (src : List Byte) :
    (listWrite dst pos src).length = dst.length := by
  simp only [listWrite, List.length_append, List.length_take, List.length_drop]
  omega

theorem listWrite_drop_take (dst : List Byte) (pos : Nat) (src : List Byte)
    (h : pos + src.length ≤ dst.length) :
    ((listWrite dst pos src).drop pos).take src.length = src := by
  have hn : min (dst.length - pos) src.length = src.length := by omega
  simp only [listWrite, hn, List.take_length]
  rw [List.append_assoc]
  have hlen : (dst.take pos).length = pos := by
    rw [List.length_take]; omega
  rw [List.drop_left' hlen, List.take_left' rfl]

theorem listWrite_drop_take' (dst : List Byte) (pos : Nat) (src : List Byte)
    (n : Nat) (hn : src.length = n) (h : pos + n ≤ dst.length) :
    ((listWrite dst pos src).drop pos).take n = src := by
  subst hn
  exact listWrite_drop_take dst pos src h

theorem wcLen_le_rem (cs o L idx dOff : Nat) :
    wcLen cs o L idx dOff ≤ L - dOff := by
  rw [wcLen]; split <;> omega

theorem wcLen_le_cs_sub (cs o L idx dOff : Nat) :
    wcLen cs o L idx dOff ≤ cs - wcStart cs o idx := by
  rw [wcLen]; split <;> omega

theorem wcLen_pos (cs o L idx dOff : Nat) (h1 : dOff < L)
    (h2 : wcStart cs o idx < cs) : 1 ≤ wcLen cs o L idx dOff := by
  rw [wcLen]; split <;> omega

theorem wcExisting_length_le (c : List ((Nat × Nat) × List Byte))
    (ino cs o L idx dOff : Nat)
    (hwf : ∀ kv ∈ c, (kv.2 : List Byte).length ≤ cs) :
    (wcExisting c ino cs o L idx dOff).length ≤ cs := by
  rw [wcExisting]
  split
  · cases hlk : alookup c (ino, idx) with
    | none => simp
    | some v => simpa using hwf _ (alookup_mem c (ino, idx) v hlk)
  · simp

theorem wcNewChunk0_length (c : List ((Nat × Nat) × List Byte))
    (ino cs o L idx dOff : Nat) :
    (wcNewChunk0 c ino cs o L idx dOff).length =
      max (wcExisting c ino cs o L idx dOff).length
        (wcStart cs o idx + wcLen cs o L idx dOff) := by
  rw [wcNewChunk0]
  split
  · rename_i h1
    split
    · rename_i h2
      simp only [List.length_append, List.length_replicate]
      omega
    · rename_i h2
      omega
  · rename_i h1
    simp only [List.length_replicate]
    omega

theorem wcNewChunk_length (c : List ((Nat × Nat) × List Byte))
    (ino cs o : Nat) (b : List Byte) (idx dOff : Nat) :
    (wcNewChunk c ino cs o b idx dOff).length =
      max (wcExisting c ino cs o b.length idx dOff).length
        (wcStart cs o idx + wcLen cs o b.length idx dOff) := by
  rw [wcNewChunk, listWrite_length, wcNewChunk0_length]

theorem wcNewChunk_length_le (c : List ((Nat × Nat) × List Byte))
    (ino cs o : Nat) (b : List Byte) (idx dOff : Nat)
    (hwf : ∀ kv ∈ c, (kv.2 : List Byte).length ≤ cs)
    (hws : wcStart cs o idx ≤ cs) :
    (wcNewChunk c ino cs o b idx dOff).length ≤ cs := by
  rw [wcNewChunk_length]
  have h1 := wcExisting_length_le c ino cs o b.length idx dOff hwf
  have h2 := wcLen_le_cs_sub cs o b.length idx dOff
  omega

theorem wcNewChunk_length_ge (c : List ((Nat × Nat) × List Byte))
    (ino cs o : Nat) (b : List Byte) (idx dOff : Nat) :
    wcStart cs o idx + wcLen cs o b.length idx dOff ≤
      (wcNewChunk c ino cs o b idx dOff).length := by
  rw [wcNewChunk_length]
  omega

/-- The written chunk carries the written data segment in place. -/
theorem wcNewChunk_drop_take (c : List ((Nat × Nat) × List Byte))
    (ino cs o : Nat) (b : List Byte) (idx dOff : Nat)
    (hle : wcLen cs o b.length idx dOff ≤ b.length - dOff) :
    ((wcNewChunk c ino cs o b idx dOff).drop (wcStart cs o idx)).take
        (wcLen cs o b.length idx dOff) =
      (b.drop dOff).take (wcLen cs o b.length idx dOff) := by
  have hsrc : ((b.drop dOff).take (wcLen cs o b.length idx dOff)).length =
      wcLen cs o b.length idx dOff := by
    rw [List.length_take, List.length_drop]
    omega
  rw [wcNewChunk,
    listWrite_drop_take' _ _ _ _ hsrc (by rw [wcNewChunk0_length]; omega)]

/-- Evaluating the read slice on a freshly written chunk under the loop
invariants: exactly the written segment comes back. -/
theorem rdSlice_spec (cs o L idx dOff : Nat) (data : List Byte)
    (hwl1 : 1 ≤ wcLen cs o L idx dOff)
    (hD : wcStart cs o idx + wcLen cs o L idx dOff ≤ data.length)
    (hmin : wcLen cs o L idx dOff =
      min (data.length - wcStart cs o idx) (L - dOff)) :
    rdSlice cs o L idx dOff data =
      (data.drop (wcStart cs o idx)).take (wcLen cs o L idx dOff) := by
  have hws : o - idx * cs = wcStart cs o idx := rfl
  simp only [rdSlice, hws]
  by_cases hcase : data.length - wcStart cs o idx > L - dOff
  · rw [if_pos hcase]
    have hgrd : (decide (wcStart cs o idx < data.length) &&
        decide (wcStart cs o idx + (L - dOff) > wcStart cs o idx)) = true := by
      simp only [Bool.and_eq_true, decide_eq_true_eq]
      omega
    rw [if_pos hgrd]
    congr 1
    omega
  · rw [if_neg hcase]
    have hgrd : (decide (wcStart cs o idx < data.length) &&
        decide (data.length > wcStart cs o idx)) = true := by
      simp only [Bool.and_eq_true, decide_eq_true_eq]
      omega
    rw [if_pos hgrd]
    congr 1
    omega

/-- The write loop never touches chunk indices below its cursor. -/
theorem writeChunksLoop_lookup_lt (ino cs o : Nat) (b : List Byte) :
    ∀ (cnt : Nat) (c : List ((Nat × Nat) × List Byte)) (idx dOff j : Nat),
      j < idx →
      alookup (writeChunksLoop ino cs o b cnt c idx dOff) (ino, j) =
        alookup c (ino, j) := by
  intro cnt
  induction cnt with
  | zero => intro c idx dOff j h; rfl
  | succ k ih =>
    intro c idx dOff j h
    simp only [writeChunksLoop]
    rw [ih _ _ _ _ (Nat.lt_succ_of_lt h)]
    refine alookup_ainsert_ne _ _ ?_
    simp only [ne_eq, Prod.mk.injEq, not_and]
    intro _ h2
    omega

theorem wf_ainsert (cs : Nat) (c : List ((Nat × Nat) × List Byte))
    (k : Nat × Nat) (v : List Byte) (hv : v.length ≤ cs)
    (hwf : ∀ kv ∈ c, (kv.2 : List Byte).length ≤ cs) :
    ∀ kv ∈ ainsert c k v, (kv.2 : List Byte).length ≤ cs := by
  intro kv hm
  rcases List.mem_cons.mp hm with h | h
  · subst h; exact hv
  · exact hwf _ (List.mem_of_mem_filter h)

/-- One step of the read loop on a present row. -/
theorem readChunksLoop_cons (c : List ((Nat × Nat) × List Byte))
    (ino cs o L k idx : Nat) (acc : List Byte) (data : List Byte)
    (hg : acc.length < L) (hlk : alookup c (ino, idx) = some data) :
    readChunksLoop c ino cs o L (k + 1) idx acc =
      readChunksLoop c ino cs o L k (idx + 1)
        (acc ++ rdSlice cs o L idx acc.length data) := by
  simp only [readChunksLoop, hlk, if_pos hg]

/-- The heart of the chunk round-trip: reading back the range just written
returns exactly the remaining data, chunk by chunk.  `A` and `E` name the
byte offsets of the cursor chunk and of the end of the scanned range, so
that all invariants are linear. -/
theorem readChunks_writeChunks (ino cs o : Nat) (b : List Byte) :
    ∀ (cnt : Nat) (c : List ((Nat × Nat) × List Byte)) (idx dOff : Nat)
      (acc : List Byte) (A E : Nat),
      A = idx * cs →
      E = (idx + cnt) * cs →
      (∀ kv ∈ c, (kv.2 : List Byte).length ≤ cs) →
      dOff < b.length →
      acc.length = dOff →
      A ≤ o + dOff →
      o + dOff < A + cs →
      (dOff = 0 ∨ o + dOff = A) →
      E ≤ o + b.length - 1 + cs →
      o + b.length - 1 < E →
      readChunksLoop (writeChunksLoop ino cs o b cnt c idx dOff) ino cs o
          b.length cnt idx acc = acc ++ b.drop dOff := by
  intro cnt
  induction cnt with
  | zero =>
    intro c idx dOff acc A E hA hE hwf h1 h2 h3 h4 h5 h6 h7
    exfalso
    have hEA : E = A := by rw [hE, Nat.add_zero, hA]
    omega
  | succ k ih =>
    intro c idx dOff acc A E hA hE hwf h1 h2 h3 h4 h5 h6 h7
    have hws : wcStart cs o idx = o + dOff - A := by
      rw [wcStart, ← hA]
      rcases h5 with h5 | h5 <;> omega
    have hwslt : wcStart cs o idx < cs := by omega
    have hwl1 : 1 ≤ wcLen cs o b.length idx dOff :=
      wcLen_pos cs o b.length idx dOff h1 hwslt
    have hwlrem : wcLen cs o b.length idx dOff ≤ b.length - dOff :=
      wcLen_le_rem cs o b.length idx dOff
    have hwlcs : wcLen cs o b.length idx dOff ≤ cs - wcStart cs o idx :=
      wcLen_le_cs_sub cs o b.length idx dOff
    have hge := wcNewChunk_length_ge c ino cs o b idx dOff
    have hsl : ((b.drop dOff).take (wcLen cs o b.length idx dOff)).length =
        wcLen cs o b.length idx dOff := by
      rw [List.length_take, List.length_drop]
      omega
    simp only [writeChunksLoop]
    have hlk : alookup (writeChunksLoop ino cs o b k
        (ainsert c (ino, idx) (wcNewChunk c ino cs o b idx dOff)) (idx + 1)
        (dOff + wcLen cs o b.length idx dOff)) (ino, idx) =
        some (wcNewChunk c ino cs o b idx dOff) := by
      rw [writeChunksLoop_lookup_lt ino cs o b k _ _ _ idx
        (Nat.lt_succ_self idx)]
      exact alookup_ainsert_self _ _ _
    rw [readChunksLoop_cons _ ino cs o b.length k idx acc _ (by omega) hlk]
    rw [h2]
    cases k with
    | zero =>
      -- final chunk: the write consumes all remaining data
      have hEeq : E = A + cs := by
        rw [hE, hA]; ring
      have hwleq : wcLen cs o b.length idx dOff = b.length - dOff := by
        rw [wcLen, hws]
        split <;> omega
      have hmin : wcLen cs o b.length idx dOff =
          min ((wcNewChunk c ino cs o b idx dOff).length -
            wcStart cs o idx) (b.length - dOff) := by
        omega
      rw [rdSlice_spec cs o b.length idx dOff _ hwl1 hge hmin]
      rw [wcNewChunk_drop_take c ino cs o b idx dOff hwlrem]
      simp only [writeChunksLoop, readChunksLoop]
      have hfull : (b.drop dOff).take (wcLen cs o b.length idx dOff) =
          b.drop dOff := by
        rw [List.take_of_length_le]
        rw [List.length_drop]
        omega
      rw [hfull]
    | succ k' =>
      -- an inner chunk: the write fills it to the chunk boundary
      have hEeq : E = (idx + k' + 2) * cs := by
        rw [hE]
        congr 1
      have hE2 : A + 2 * cs ≤ E := by
        have hmono : (idx + 2) * cs ≤ (idx + k' + 2) * cs :=
          Nat.mul_le_mul_right cs (by omega)
        have hrw : (idx + 2) * cs = A + 2 * cs := by
          rw [hA]; ring
        omega
      have hwleq : wcLen cs o b.length idx dOff =
          cs - wcStart cs o idx := by
        rw [wcLen, hws]
        split <;> omega
      have hlenle := wcNewChunk_length_le c ino cs o b idx dOff hwf hwslt.le
      have hlen : (wcNewChunk c ino cs o b idx dOff).length = cs := by
        omega
      have hmin : wcLen cs o b.length idx dOff =
          min ((wcNewChunk c ino cs o b idx dOff).length -
            wcStart cs o idx) (b.length - dOff) := by
        omega
      rw [rdSlice_spec cs o b.length idx dOff _ hwl1 hge hmin]
      rw [wcNewChunk_drop_take c ino cs o b idx dOff hwlrem]
      rw [ih (ainsert c (ino, idx) (wcNewChunk c ino cs o b idx dOff))
        (idx + 1) (dOff + wcLen cs o b.length idx dOff) _ (A + cs) E
        (by rw [hA]; ring)
        (by rw [hEeq]; congr 1; omega)
        (wf_ainsert cs c _ _ hlenle hwf)
        (by omega)
        (by rw [List.length_append, hsl, h2])
        (by omega)
        (by omega)
        (Or.inr (by omega))
        h6 h7]
      rw [List.append_assoc]
      congr 1
      have hdd : b.drop (dOff + wcLen cs o b.length idx dOff) =
          (b.drop dOff).drop (wcLen cs o b.length idx dOff) := by
        rw [List.drop_drop]
      rw [hdd, List.take_append_drop]

@[simp] theorem chunks_UpdateSize (s : Store) (now : Int) (ino sz : Nat) :
    (s.UpdateSize now ino sz).chunks = s.chunks := rfl

@[simp] theorem chunkSize_UpdateSize (s : Store) (now : Int) (ino sz : Nat) :
    (s.UpdateSize now ino sz).chunkSize = s.chunkSize := rfl

@[simp] theorem chunks_UpdateTimes (s : Store) (now : Int) (ino : Nat)
    (at' mt : Option Int) : (s.UpdateTimes now ino at' mt).chunks = s.chunks :=
  rfl

@[simp] theorem chunkSize_UpdateTimes (s : Store) (now : Int) (ino : Nat)
    (at' mt : Option Int) :
    (s.UpdateTimes now ino at' mt).chunkSize = s.chunkSize := rfl

@[simp] theorem inodes_UpdateTimes (s : Store) (now : Int) (ino : Nat)
    (at' mt : Option Int) :
    (s.UpdateTimes now ino at' mt).inodes = amodify s.inodes ino
      (fun i =>
        { i with
            atime := at'.getD now
            mtime := mt.getD now
            ctime := now }) := rfl

/-- `ReadData` only looks at the chunk table and the chunk size. -/
theorem ReadData_congr (s s' : Store) (hc : s'.chunks = s.chunks)
    (hcs : s'.chunkSize = s.chunkSize) (ino o L : Nat) :
    s'.ReadData ino o L = s.ReadData ino o L := by
  simp only [Store.ReadData, hc, hcs]

theorem GetInode_some (s : Store) (ino : Nat) (i : Inode)
    (h : s.GetInode ino = .ok i) : alookup s.inodes ino = some i := by
  rw [Store.GetInode] at h
  cases hlk : alookup s.inodes ino <;> rw [hlk] at h <;> simp_all

/-- Writing `b` at offset `o` and reading the same range back returns
exactly `b`. -/
theorem ReadData_WriteData (s : Store) (ino o : Nat) (b : List Byte)
    (hcs : 0 < s.chunkSize)
    (hwf : ∀ kv ∈ s.chunks, (kv.2 : List Byte).length ≤ s.chunkSize) :
    (s.WriteData ino o b).ReadData ino o b.length = b := by
  by_cases hb : b.length = 0
  · have hbe : b = [] := List.length_eq_zero.mp hb
    subst hbe
    simp [Store.WriteData, Store.ReadData]
  · rw [Store.WriteData, if_neg hb]
    have hL : 0 < b.length := Nat.pos_of_ne_zero hb
    simp only [Store.ReadData, if_neg hb]
    have hSE : o / s.chunkSize ≤ (o + b.length - 1) / s.chunkSize :=
      Nat.div_le_div_right (by omega)
    have hdm1 := Nat.div_add_mod o s.chunkSize
    have hm1 := Nat.mod_lt o hcs
    have hdm2 := Nat.div_add_mod (o + b.length - 1) s.chunkSize
    have hm2 := Nat.mod_lt (o + b.length - 1) hcs
    have hc1 : (o / s.chunkSize) * s.chunkSize =
        s.chunkSize * (o / s.chunkSize) := Nat.mul_comm _ _
    have hc2 : ((o + b.length - 1) / s.chunkSize) * s.chunkSize =
        s.chunkSize * ((o + b.length - 1) / s.chunkSize) := Nat.mul_comm _ _
    have hsucc : ((o + b.length - 1) / s.chunkSize + 1) * s.chunkSize =
        ((o + b.length - 1) / s.chunkSize) * s.chunkSize + s.chunkSize :=
      Nat.succ_mul _ _
    have hmain := Store.readChunks_writeChunks ino s.chunkSize o b
      ((o + b.length - 1) / s.chunkSize - o / s.chunkSize + 1) s.chunks
      (o / s.chunkSize) 0 []
      ((o / s.chunkSize) * s.chunkSize)
      (((o + b.length - 1) / s.chunkSize + 1) * s.chunkSize)
      rfl
      (by congr 1; omega)
      hwf
      hL
      rfl
      (by omega)
      (by omega)
      (Or.inl rfl)
      (by omega)
      (by omega)
    simpa using hmain

end Store

/-- C2: for every delta file handle, writing the byte string `b` at offset
`o` and then reading `b.length` bytes at `o` returns exactly `b`; after the
write the inode's size equals `max` of its prior size and `o + b.length`.
The hypotheses state that the store's chunk size is positive and every
stored chunk fits it, which hold in every store the code builds, and that
the handle's inode exists. -/
theorem claim_C2_chunk_roundtrip (s : Store) (now : Int) (ino o : Nat)
    (b : List Byte) (ind : Inode)
    (hcs : 0 < s.chunkSize)
    (hwf : ∀ kv ∈ s.chunks, (kv.2 : List Byte).length ≤ s.chunkSize)
    (hind : s.GetInode ino = .ok ind) :
    ∃ s' : Store, AgentFS.fileWrite s now ino o b = .ok (s', b.length) ∧
      AgentFS.fileRead s' ino b.length o = b ∧
      (s'.GetInode ino).map (fun i => i.size) =
        .ok (max ind.size (o + b.length)) := by
  have hlk : alookup s.inodes ino = some ind := Store.GetInode_some s ino ind hind
  have hind1 : (s.WriteData ino o b).GetInode ino = .ok ind := by
    rw [Store.GetInode, Store.inodes_WriteData, hlk]
  have hread : (s.WriteData ino o b).ReadData ino o b.length = b :=
    Store.ReadData_WriteData s ino o b hcs hwf
  rw [AgentFS.fileWrite]
  simp only [hind1, bindE_ok]
  by_cases hsz : o + b.length > ind.size
  · rw [if_pos hsz]
    refine ⟨_, rfl, ?_, ?_⟩
    · rw [AgentFS.fileRead]
      exact (Store.ReadData_congr (s.WriteData ino o b) _ rfl rfl ino o
        b.length).trans hread
    · rw [Store.GetInode, Store.inodes_UpdateSize, alookup_amodify_self,
        Store.inodes_WriteData, hlk, Nat.max_eq_right (Nat.le_of_lt hsz)]
      rfl
  · rw [if_neg hsz]
    refine ⟨_, rfl, ?_, ?_⟩
    · rw [AgentFS.fileRead]
      exact (Store.ReadData_congr (s.WriteData ino o b) _ rfl rfl ino o
        b.length).trans hread
    · rw [Store.GetInode, Store.inodes_UpdateTimes, alookup_amodify_self,
        Store.inodes_WriteData, hlk, Nat.max_eq_left (by omega : o + b.length ≤ ind.size)]
      rfl

/-- Witness for `claim_C2_chunk_roundtrip`: write three bytes at offset 2
of the size-5 file of `c3Store` (chunk size 4, so the write spans two
chunks). -/
theorem claim_C2_witness :
    ∃ s' : Store, AgentFS.fileWrite c3Store 0 2 2 [9, 8, 7] = .ok (s', 3) ∧
      AgentFS.fileRead s' 2 3 2 = [9, 8, 7] ∧
      (s'.GetInode 2).map (fun i => i.size) = .ok (max 5 (2 + 3)) :=
  claim_C2_chunk_roundtrip c3Store 0 2 2 [9, 8, 7]
    ⟨2, 0o100644, 1, 0, 0, 5, 0, 0, 0⟩ (by decide) (by decide) rfl

/-- Witness for `claim_C4_copyup_inode_stability`: copy-up of the base-only
regular file `/x` (base inode 7) preserves the reported inode number. -/
theorem claim_C4_witness :
    OverlayFS.Stat c4Overlay "/x" = .ok ⟨7, 0o100644, 1, 0, 0, 0, 3, 4, 5⟩ ∧
      (OverlayFS.Stat c4After "/x").map Stats.ino = .ok 7 :=
  claim_C4_copyup_inode_stability c4Overlay 0 "/x"
    ⟨7, 0o100644, 1, 0, 0, 0, 3, 4, 5⟩ c4After rfl rfl rfl (by decide)
    (Or.inl rfl) rfl

/-- Witness for `claim_C10_remove_base_directory` at the `c5Overlay` fixture
and its base-only directory `/c/d`. -/
theorem claim_C10_witness :
    (OverlayFS.Remove c5Overlay 0 "/c/d" =
        .ok { c5Overlay with
                delta := c5Overlay.delta.CreateWhiteout 0 "/c/d"
                whiteout := c5Overlay.whiteout.Insert "/c/d" } ∧
      (c5Overlay.whiteout.Insert "/c/d").HasExactWhiteout "/c/d" = true ∧
      (∀ rest,
        (c5Overlay.whiteout.Insert "/c/d").root.ancParts
            (splitPath "/c/d" ++ rest) = true) ∧
      alookup (c5Overlay.delta.CreateWhiteout 0 "/c/d").whiteouts
          (normalizePath "/c/d") = some 0) ∧
    ∀ (o2 : OverlayFS) (now2 : Int) (q : String),
      OverlayFS.Remove o2 now2 q = .error FsErr.isDir →
        o2.existsInDelta q = true :=
  claim_C10_remove_base_directory c5Overlay 0 "/c/d"
    ⟨12, 0o40755, 2, 0, 0, 0, 0, 0, 0⟩ rfl rfl rfl rfl (by decide)

end Art

